import Mathlib

/-!
Verification of the hoshi starred-repository browser (main.go) against its
natural-language specification.  The Go source is shallowly embedded below:
pure fragments become Lean functions, the fatal-error path (log.Fatal) is
modelled with Except, the Go slice-out-of-range panic with Option, and the
unbounded pagination loop with explicit fuel.
-/

namespace Hoshi

open List (Perm)

open scoped List

/-- Owner sub-record of a Star; only the Login field is consulted by the
program logic (sorting by author name). -/
structure Owner where
  Login : String
  deriving DecidableEq

/-- Model of the Star record (main.go lines 36-135).  Only the fields the
program logic reads are retained: ID (opaque identifier), Name, FullName,
the owner handle, Description, and the two timestamps.  Go time.Time values
are modelled as integers; t.After(u) is t > u. -/
structure Star where
  ID : Int
  Name : String
  FullName : String
  Owner : Owner
  Description : String
  CreatedAt : Int
  UpdatedAt : Int
  deriving DecidableEq

/-- One remote response for a page request, as seen by getStarsPage: either
the transport fails (http.Get returns an error), or a body arrives and
json.Unmarshal either decodes a list of stars or fails.  A failed decode is
`body none`: the Go code ignores the unmarshal error, leaving the local
`stars` slice nil. -/
inductive PageResponse where
  | transportError : PageResponse
  | body : Option (List Star) → PageResponse
  deriving DecidableEq

/-- Model of getStarsPage (main.go lines 137-156).  A transport error hits
log.Fatal, modelled as `Except.error ()`.  Otherwise json.Unmarshal fills
`stars` (left nil, i.e. [], when the payload is malformed, because the
returned error is discarded), and the function returns nil (`none`) when
`len(stars) == 0`, else the list. -/
def getStarsPage (resp : PageResponse) : Except Unit (Option (List Star)) :=
  match resp with
  | .transportError => .error ()
  | .body decoded =>
    let stars := decoded.getD []
    if stars.isEmpty then .ok none else .ok (some stars)

/-- Model of the pagination loop in run (main.go lines 214-220):
`for i := 1; ; i++ { if s := getStarsPage(user, i); s != nil { append } else break }`.
The loop is unbounded in Go, so it is given explicit fuel; `none` means the
fuel ran out before the loop terminated.  On success the result carries the
accumulated star list together with the list of page numbers fetched, so
that the number and order of fetch calls is part of the model. -/
def aggregateLoop (fetch : Nat → PageResponse) : Nat → Nat → Option (Except Unit (List Star × List Nat))
  | 0, _ => none
  | fuel + 1, i =>
    match getStarsPage (fetch i) with
    | .error e => some (.error e)
    | .ok none => some (.ok ([], [i]))
    | .ok (some s) =>
      match aggregateLoop fetch fuel (i + 1) with
      | none => none
      | some (.error e) => some (.error e)
      | some (.ok (stars, calls)) => some (.ok (s ++ stars, i :: calls))

/-- The retrieval run: the pagination loop started at page 1. -/
def aggregate (fetch : Nat → PageResponse) (fuel : Nat) : Option (Except Unit (List Star × List Nat)) :=
  aggregateLoop fetch fuel 1

/-- Model of the description-truncation step in run (main.go lines 227-233):
`if len(d) > width-22 { d = d[:width-25] + "..." }` with `width` the terminal
width (a uint in Go, converted to int, so the subtractions are over Int).
A Go slice expression s[:n] panics unless 0 <= n <= len(s); the panic is
modelled as `none`. -/
def truncateDescription (width : Nat) (desc : String) : Option String :=
  if (desc.length : Int) > (width : Int) - 22 then
    if 0 ≤ (width : Int) - 25 ∧ (width : Int) - 25 ≤ (desc.length : Int) then
      some (String.mk (desc.data.take ((width : Int) - 25).toNat) ++ "...")
    else
      none
  else
    some desc

/-! Port of the Go standard library sort used by sortItemOrder.  The hoshi
repository predates Go 1.19, so sort.Slice is the classic introsort of
sort/zfuncversion.go: quickSort with medianOfThree pivot selection, a
three-way partition (doPivot), heapSort as the depth-limit fallback, and a
gap-6 pass followed by insertionSort for ranges of at most 12 elements.
Every Go loop is rendered as a fuel-carrying recursion whose fuel provably
suffices, and every array access goes through total helpers (`aswap`,
`altb`) whose out-of-range branches are never taken on the indices the
algorithm produces. -/

section SortSlice

variable {α : Type}

/-- data.Swap(i, j); identity when an index is out of range.  Written with
set and get directly (rather than Array.swap, whose definition carries a
cast) so that concrete runs reduce definitionally. -/
def aswap (arr : Array α) (i j : Nat) : Array α :=
  if h : i < arr.size ∧ j < arr.size then
    (arr.set ⟨i, h.1⟩ (arr.get ⟨j, h.2⟩)).set ⟨j, by simpa using h.2⟩ (arr.get ⟨i, h.1⟩)
  else arr

/-- data.Less(i, j); false when an index is out of range. -/
def altb (lt : α → α → Bool) (arr : Array α) (i j : Nat) : Bool :=
  match arr[i]?, arr[j]? with
  | some x, some y => lt x y
  | _, _ => false

/-- Inner loop of insertionSort: `for j := i; j > a && Less(j, j-1); j--`
with the current j passed as the recursion argument. -/
def insertionInner (lt : α → α → Bool) (a : Nat) : Array α → Nat → Array α
  | arr, 0 => arr
  | arr, j + 1 =>
    if a ≤ j ∧ altb lt arr (j + 1) j then insertionInner lt a (aswap arr (j + 1) j) j else arr

/-- Outer loop of insertionSort: `for i := a+1; i < b; i++`, with the
number of remaining iterations as fuel. -/
def insertionGo (lt : α → α → Bool) (a : Nat) : Nat → Nat → Array α → Array α
  | 0, _, arr => arr
  | n + 1, i, arr => insertionGo lt a n (i + 1) (insertionInner lt a arr i)

/-- insertionSort(data, a, b) from the Go sort package. -/
def insertionSort (lt : α → α → Bool) (arr : Array α) (a b : Nat) : Array α :=
  insertionGo lt a (b - (a + 1)) (a + 1) arr

/-- Child selection inside siftDown: child := 2*root+1, bumped to the
right sibling when it exists and is larger. -/
def siftChild (lt : α → α → Bool) (arr : Array α) (hi first root : Nat) : Nat :=
  if 2 * root + 1 + 1 < hi ∧ altb lt arr (first + (2 * root + 1)) (first + (2 * root + 1) + 1)
  then 2 * root + 1 + 1 else 2 * root + 1

/-- siftDown loop body; the root strictly increases each iteration, so fuel
`hi + 1` always suffices. -/
def siftDownGo (lt : α → α → Bool) (hi first : Nat) : Nat → Nat → Array α → Array α
  | 0, _, arr => arr
  | fuel + 1, root, arr =>
    if 2 * root + 1 ≥ hi then arr
    else
      let child := siftChild lt arr hi first root
      if ¬ altb lt arr (first + root) (first + child) then arr
      else siftDownGo lt hi first fuel child (aswap arr (first + root) (first + child))

/-- siftDown(data, lo, hi, first) from the Go sort package. -/
def siftDown (lt : α → α → Bool) (arr : Array α) (lo hi first : Nat) : Array α :=
  siftDownGo lt hi first (hi + 1) lo arr

/-- heapSort heapify loop: `for i := (hi-1)/2; i >= 0; i--`, counter i+1. -/
def heapLoop1 (lt : α → α → Bool) (hi first : Nat) : Nat → Array α → Array α
  | 0, arr => arr
  | i + 1, arr => heapLoop1 lt hi first i (siftDown lt arr i hi first)

/-- heapSort extraction loop: `for i := hi-1; i >= 0; i--`, counter i+1. -/
def heapLoop2 (lt : α → α → Bool) (first : Nat) : Nat → Array α → Array α
  | 0, arr => arr
  | i + 1, arr => heapLoop2 lt first i (siftDown lt (aswap arr first (first + i)) 0 i first)

/-- heapSort(data, a, b) from the Go sort package.  Note that for b = a the
Go heapify loop still runs one iteration (its int division (hi-1)/2 rounds
-1/2 to 0), which is a no-op siftDown; the Nat division here gives the same
single no-op iteration. -/
def heapSort (lt : α → α → Bool) (arr : Array α) (a b : Nat) : Array α :=
  let first := a
  let hi := b - a
  heapLoop2 lt first hi (heapLoop1 lt hi first ((hi - 1) / 2 + 1) arr)

/-- One compare-and-swap of the Go sort: `if Less(i, j) { Swap(i, j) }`. -/
def condSwap (lt : α → α → Bool) (arr : Array α) (i j : Nat) : Array α :=
  if altb lt arr i j then aswap arr i j else arr

/-- medianOfThree(data, m1, m0, m2) from the Go sort package: sort the
three elements so that data[m0] is the median. -/
def medianOfThree (lt : α → α → Bool) (arr : Array α) (m1 m0 m2 : Nat) : Array α :=
  let arr1 := condSwap lt arr m1 m0
  if altb lt arr1 m2 m1 then condSwap lt (aswap arr1 m2 m1) m1 m0 else arr1

/-- doPivot initial scan: `for ; a < c && Less(a, pivot); a++` (also reused
for the second inner loop of the protect phase, whose condition has the
same shape with c the current b). -/
def advanceA (lt : α → α → Bool) (arr : Array α) (pivot c : Nat) : Nat → Nat → Nat
  | 0, a => a
  | fuel + 1, a => if a < c ∧ altb lt arr a pivot then advanceA lt arr pivot c fuel (a + 1) else a

/-- doPivot partition inner loop: `for ; b < c && !Less(pivot, b); b++`. -/
def advanceB (lt : α → α → Bool) (arr : Array α) (pivot c : Nat) : Nat → Nat → Nat
  | 0, b => b
  | fuel + 1, b => if b < c ∧ ¬ altb lt arr pivot b then advanceB lt arr pivot c fuel (b + 1) else b

/-- doPivot partition inner loop: `for ; b < c && Less(pivot, c-1); c--`. -/
def advanceC (lt : α → α → Bool) (arr : Array α) (pivot b : Nat) : Nat → Nat → Nat
  | 0, c => c
  | fuel + 1, c => if b < c ∧ altb lt arr pivot (c - 1) then advanceC lt arr pivot b fuel (c - 1) else c

/-- doPivot partition outer loop: advance b, retreat c, stop when they
meet, otherwise Swap(b, c-1), b++, c--.  Each outer iteration shrinks c-b,
so fuel hi suffices. -/
def partitionLoop (lt : α → α → Bool) (pivot hi : Nat) : Nat → Nat → Nat → Array α → Nat × Nat × Array α
  | 0, b, c, arr => (b, c, arr)
  | fuel + 1, b, c, arr =>
    let b1 := advanceB lt arr pivot c hi b
    let c1 := advanceC lt arr pivot b1 hi c
    if b1 ≥ c1 then (b1, c1, arr)
    else partitionLoop lt pivot hi fuel (b1 + 1) (c1 - 1) (aswap arr b1 (c1 - 1))

/-- First inner loop of the protect phase:
`for ; a < b && !Less(b-1, pivot); b--`. -/
def retreatB (lt : α → α → Bool) (arr : Array α) (pivot a : Nat) : Nat → Nat → Nat
  | 0, b => b
  | fuel + 1, b => if a < b ∧ ¬ altb lt arr (b - 1) pivot then retreatB lt arr pivot a fuel (b - 1) else b

/-- Outer loop of the protect phase of doPivot. -/
def protectLoop (lt : α → α → Bool) (pivot : Nat) : Nat → Nat → Nat → Array α → Nat × Nat × Array α
  | 0, a, b, arr => (a, b, arr)
  | fuel + 1, a, b, arr =>
    let b1 := retreatB lt arr pivot a b b
    let a1 := advanceA lt arr pivot b1 b1 a
    if a1 ≥ b1 then (a1, b1, arr)
    else protectLoop lt pivot fuel (a1 + 1) (b1 - 1) (aswap arr a1 (b1 - 1))

/-- The duplicate-detection block of doPivot, run when many elements ended
up equal to the pivot: the three conditional adjustments of c, b and the
array, performed in Go order, returning (b, c, array, dups > 1). -/
def doPivotDups (lt : α → α → Bool) (arr : Array α) (pivot m b c hi : Nat) : Nat × Nat × Array α × Bool :=
  let t1 : Nat × Array α × Nat :=
    if ¬ altb lt arr pivot (hi - 1) then (c + 1, aswap arr c (hi - 1), 1) else (c, arr, 0)
  let c1 := t1.1
  let arr1 := t1.2.1
  let k1 := t1.2.2
  let t2 : Nat × Nat :=
    if ¬ altb lt arr1 (b - 1) pivot then (b - 1, k1 + 1) else (b, k1)
  let b2 := t2.1
  let k2 := t2.2
  let t3 : Nat × Array α × Nat :=
    if ¬ altb lt arr1 m pivot then (b2 - 1, aswap arr1 (b2 - 1) m, k2 + 1) else (b2, arr1, k2)
  (t3.1, c1, t3.2.1, decide (t3.2.2 > 1))

/-- Pivot selection of doPivot: Tukey ninther for ranges longer than 40,
then the final medianOfThree placing the pivot candidate at lo. -/
def doPivotInit (lt : α → α → Bool) (arr0 : Array α) (lo hi : Nat) : Array α :=
  let m := (lo + hi) / 2
  let arrA :=
    if hi - lo > 40 then
      let s := (hi - lo) / 8
      let u1 := medianOfThree lt arr0 lo (lo + s) (lo + 2 * s)
      let u2 := medianOfThree lt u1 m (m - s) (m + s)
      medianOfThree lt u2 (hi - 1) (hi - 1 - s) (hi - 1 - 2 * s)
    else arr0
  medianOfThree lt arrA lo m (hi - 1)

/-- Scanning phase of doPivot: the initial advance of a over elements below
the pivot, then the main partition loop; returns (a, b, c, array). -/
def doPivotScan (lt : α → α → Bool) (arrB : Array α) (lo hi : Nat) : Nat × Nat × Nat × Array α :=
  let a := advanceA lt arrB lo (hi - 1) hi (lo + 1)
  let bca := partitionLoop lt lo hi hi a (hi - 1) arrB
  (a, bca.1, bca.2.1, bca.2.2)

/-- doPivot(data, lo, hi) from the Go sort package, returning
(midlo, midhi, array): pivot selection, scan, the optional
duplicate-detection block, the optional protect phase, and the final
Swap(pivot, b-1). -/
def doPivot (lt : α → α → Bool) (arr0 : Array α) (lo hi : Nat) : Nat × Nat × Array α :=
  let m := (lo + hi) / 2
  let arrB := doPivotInit lt arr0 lo hi
  let s := doPivotScan lt arrB lo hi
  let a := s.1
  let b := s.2.1
  let c := s.2.2.1
  let arrC := s.2.2.2
  let quad :=
    if ¬ (hi - c < 5) ∧ hi - c < (hi - lo) / 4 then doPivotDups lt arrC lo m b c hi
    else (b, c, arrC, decide (hi - c < 5))
  let b1 := quad.1
  let c1 := quad.2.1
  let arrD := quad.2.2.1
  let protect := quad.2.2.2
  let tri := if protect then protectLoop lt lo hi a b1 arrD else (a, b1, arrD)
  let b2 := tri.2.1
  let arrE := tri.2.2
  (b2 - 1, c1, aswap arrE lo (b2 - 1))

/-- The gap-6 pass run before insertionSort on short ranges:
`for i := a+6; i < b; i++ { if Less(i, i-6) { Swap(i, i-6) } }`. -/
def shellGo (lt : α → α → Bool) : Nat → Nat → Array α → Array α
  | 0, _, arr => arr
  | n + 1, i, arr => shellGo lt n (i + 1) (if altb lt arr i (i - 6) then aswap arr i (i - 6) else arr)

/-- The short-range branch of quickSort: gap-6 pass then insertionSort. -/
def shellPass (lt : α → α → Bool) (arr : Array α) (a b : Nat) : Array α :=
  shellGo lt (b - (a + 6)) (a + 6) arr

/-- quickSort(data, a, b, maxDepth) from the Go sort package.  The Go
function is a loop that recurses into the smaller half and continues on
the larger half with maxDepth already decremented; unfolded here into two
recursive calls at maxDepth - 1.  Each call strictly decreases maxDepth
until the heapSort guard fires, so fuel maxDepth + 1 never runs out. -/
def quickSortGo (lt : α → α → Bool) : Nat → Array α → Nat → Nat → Nat → Array α
  | 0, arr, _, _, _ => arr
  | fuel + 1, arr, a, b, maxDepth =>
    if b - a > 12 then
      if maxDepth = 0 then heapSort lt arr a b
      else
        let res := doPivot lt arr a b
        let mlo := res.1
        let mhi := res.2.1
        let arr1 := res.2.2
        if mlo - a < b - mhi then
          let arr2 := quickSortGo lt fuel arr1 a mlo (maxDepth - 1)
          quickSortGo lt fuel arr2 mhi b (maxDepth - 1)
        else
          let arr2 := quickSortGo lt fuel arr1 mhi b (maxDepth - 1)
          quickSortGo lt fuel arr2 a mlo (maxDepth - 1)
    else
      if b - a > 1 then insertionSort lt (shellPass lt arr a b) a b
      else arr

/-- Bit length of n, computed with the recursion of Go maxDepth
(`for i := n; i > 0; i >>= 1 { depth++ }`); the first argument is fuel,
and n iterations always suffice. -/
def bitLenAux : Nat → Nat → Nat
  | 0, _ => 0
  | fuel + 1, n => if n = 0 then 0 else bitLenAux fuel (n / 2) + 1

/-- maxDepth(n) = 2 * (number of bits of n), the depth limit sort.Slice
passes to quickSort. -/
def maxDepthFn (n : Nat) : Nat := 2 * bitLenAux n n

/-- sort.Slice(x, less): quickSort over the whole range with the maxDepth
limit. -/
def sortSlice (lt : α → α → Bool) (arr : Array α) : Array α :=
  quickSortGo lt (maxDepthFn arr.size + 1) arr 0 arr.size (maxDepthFn arr.size)

/-- The list of elements at positions [a, b) of the array. -/
def aslice (arr : Array α) (a b : Nat) : List α := (arr.toList.drop a).take (b - a)

/-- The range [a, b) is weakly sorted for lt: no later element of the
range is less than an earlier one (vacuous at out-of-range indices, where
altb is false). -/
def ISorted (lt : α → α → Bool) (arr : Array α) (a b : Nat) : Prop :=
  ∀ i j, a ≤ i → i < j → j < b → altb lt arr j i = false

/-- The in-place reversal loop of sortItemOrder (main.go lines 159-165):
`for i := len/2 - 1; i >= 0; i-- { j := len-1-i; swap }`, with the counter
i+1 as recursion argument and n the (constant) length. -/
def revLoop (n : Nat) : Nat → Array α → Array α
  | 0, arr => arr
  | i + 1, arr => revLoop n i (aswap arr i (n - 1 - i))

/-- The local `reversed` helper of sortItemOrder. -/
def reversedFn (arr : Array α) : Array α :=
  revLoop arr.size (arr.size / 2) arr

end SortSlice

/-- strings.ToLower as used by the comparators and the searcher: lower-case
every character.  Written on the character list (String.map recurses on
byte positions and does not reduce definitionally). -/
def strToLower (s : String) : String := String.mk (s.data.map Char.toLower)

/-- Lexicographic comparison of character lists by code point, the order
Go uses for its string comparison operator (on valid UTF-8 the code-point
order coincides with the byte order Go compares by). -/
def charListLt : List Char → List Char → Bool
  | _, [] => false
  | [], _ :: _ => true
  | c :: s, d :: t =>
    if c.toNat < d.toNat then true
    else if d.toNat < c.toNat then false
    else charListLt s t

/-- The Go string less-than, on the underlying characters. -/
def strLt (a b : String) : Bool := charListLt a.data b.data

/-- Comparator of the author-name case: ascending, case-insensitive owner
login. -/
def ltAuthorName (x y : Star) : Bool := strLt (strToLower x.Owner.Login) (strToLower y.Owner.Login)

/-- Comparator of the created-at case: CreatedAt.After, i.e. descending
creation time. -/
def ltCreatedAt (x y : Star) : Bool := x.CreatedAt > y.CreatedAt

/-- Comparator of the repository-name case: ascending, case-insensitive
display name. -/
def ltRepositoryName (x y : Star) : Bool := strLt (strToLower x.Name) (strToLower y.Name)

/-- Comparator of the updated-at case: UpdatedAt.After, i.e. descending
update time. -/
def ltUpdatedAt (x y : Star) : Bool := x.UpdatedAt > y.UpdatedAt

/-- Model of sortItemOrder (main.go lines 158-192): switch on the order
string (the added-at case and any unrecognized string leave the slice
untouched), then reverse in place when the reverse flag is set. -/
def sortItemOrder (stars : List Star) (order : String) (reverse : Bool) : List Star :=
  let arr := stars.toArray
  let sorted :=
    match order with
    | "added-at" => arr
    | "author-name" => sortSlice ltAuthorName arr
    | "created-at" => sortSlice ltCreatedAt arr
    | "repository-name" => sortSlice ltRepositoryName arr
    | "updated-at" => sortSlice ltUpdatedAt arr
    | _ => arr
  let final := if reverse then reversedFn sorted else sorted
  final.toList

/-- Normalization used by the searcher (main.go lines 260-261):
strings.Replace(strings.ToLower(s), " ", "", -1), i.e. lower-case every
character and delete every space character. -/
def normalize (s : String) : String :=
  String.mk ((s.data.map Char.toLower).filter (fun c => c ≠ ' '))

/-- Inner loop of fuzzy.Match: scan the target for the first occurrence of
`c`, returning the remainder of the target after it, or `none` when `c`
does not occur. -/
def scanFrom (c : Char) : List Char → Option (List Char)
  | [] => none
  | d :: t => if d = c then some t else scanFrom c t

/-- Outer loop of fuzzy.Match: consume the source runes one at a time,
advancing past the first occurrence of each in the remaining target. -/
def matchLoop : List Char → List Char → Bool
  | [], _ => true
  | c :: s, t =>
    match scanFrom c t with
    | none => false
    | some t2 => matchLoop s t2

/-- Model of fuzzy.Match from lithammer/fuzzysearch as called by the
searcher: return false when the target is shorter than the source, true
when they are equal, and otherwise run the greedy subsequence scan. -/
def fuzzyMatch (source target : String) : Bool :=
  if target.length < source.length then false
  else if source = target then true
  else matchLoop source.data target.data

/-- Visibility of one candidate under a query: the searcher closure
(main.go lines 258-264) normalizes the typed input and the candidate
FullName and applies fuzzy.Match. -/
def searcherMatch (input : String) (star : Star) : Bool :=
  fuzzyMatch (normalize input) (normalize star.FullName)

/-- The searcher closure itself, indexing into the candidate list; `none`
models the Go index-out-of-range panic for an invalid index. -/
def searcher (stars : List Star) (input : String) (index : Nat) : Option Bool :=
  (stars.get? index).map (fun star => searcherMatch input star)

/-! Concrete data used in the concrete evaluations below. -/

/-- A star with a given identifier and owner login; all other fields empty. -/
def mkStar (id : Int) (login : String) : Star :=
  { ID := id, Name := "", FullName := "", Owner := { Login := login },
    Description := "", CreatedAt := 0, UpdatedAt := 0 }

/-- A star with a given full name; all other fields empty. -/
def mkStarFull (full : String) : Star :=
  { ID := 0, Name := "", FullName := full, Owner := { Login := "" },
    Description := "", CreatedAt := 0, UpdatedAt := 0 }

/-- First sample star. -/
def exStar1 : Star := mkStar 1 "alice"

/-- Second sample star. -/
def exStar2 : Star := mkStar 2 "bob"

/-- Fetch function whose page 1 is one good record and whose page 2 is a
malformed payload (json.Unmarshal fails on it). -/
def exFetchMalformed : Nat → PageResponse :=
  fun k => if k = 1 then .body (some [exStar1]) else .body none

/-- Fetch function whose page 1 is one good record and whose page 2 fails
at the transport level. -/
def exFetchTransport : Nat → PageResponse :=
  fun k => if k = 1 then .body (some [exStar1]) else .transportError

/-- Fetch function with two non-empty pages followed by empty pages. -/
def exFetchPages : Nat → PageResponse :=
  fun k =>
    if k = 1 then .body (some [exStar1])
    else if k = 2 then .body (some [exStar2]) else .body (some [])

/-- A star with owner handle a and identifier 6. -/
def exTieLate : Star := mkStar 6 "a"

/-- A star with owner handle a and identifier 1. -/
def exTieEarly : Star := mkStar 1 "a"

/-- Seven stars among which exTieEarly and exTieLate carry equal owner
handles, exTieEarly first. -/
def ex7 : List Star :=
  [mkStar 0 "b", exTieEarly, mkStar 2 "c", mkStar 3 "d", mkStar 4 "e", mkStar 5 "f", exTieLate]

/-- A candidate whose full name is ab. -/
def abStar : Star := mkStarFull "ab"

/-- Normalization as worded in the specification of the fuzzy matcher:
lower-case and strip all whitespace (not only the space character).
Declared only to compare the specified contract against the implemented
normalization, which strips spaces alone. -/
def specNormalize (s : String) : String :=
  String.mk ((s.data.map Char.toLower).filter (fun c => ¬ c.isWhitespace))

/-! Permutation infrastructure: every mutation the ported sort performs is
an index swap, so every phase returns a permutation of its input. -/

section SortLemmas

variable {α : Type}

/-- Overwriting position m with a and moving the displaced entry to the
front is a permutation. -/
theorem set_get_cons_perm (t : List α) (m : Nat) (hm : m < t.length) (a : α) :
    t[m] :: t.set m a ~ a :: t := by
  induction t generalizing m with
  | nil => simp at hm
  | cons b t2 ih =>
    cases m with
    | zero => simpa using List.Perm.swap' a b (List.Perm.refl t2)
    | succ m =>
      have hm2 : m < t2.length := by simpa using hm
      have step1 : t2[m] :: b :: t2.set m a ~ b :: t2[m] :: t2.set m a :=
        List.Perm.swap' _ _ (List.Perm.refl _)
      have step2 : b :: t2[m] :: t2.set m a ~ b :: a :: t2 := (ih m hm2).cons b
      have step3 : b :: a :: t2 ~ a :: b :: t2 := List.Perm.swap' _ _ (List.Perm.refl _)
      simpa using (step1.trans step2).trans step3

/-- Swapping two positions of a list, written with set, is a permutation. -/
theorem set_set_swap_perm (l : List α) (i j : Nat) (hi : i < l.length) (hj : j < l.length) :
    (l.set i l[j]).set j l[i] ~ l := by
  induction l generalizing i j with
  | nil => simp at hi
  | cons x t ih =>
    match i, j with
    | 0, 0 => simp
    | 0, m + 1 =>
      have hm : m < t.length := by simpa using hj
      simpa using set_get_cons_perm t m hm x
    | k + 1, 0 =>
      have hk : k < t.length := by simpa using hi
      simpa using set_get_cons_perm t k hk x
    | k + 1, m + 1 =>
      have hk : k < t.length := by simpa using hi
      have hm : m < t.length := by simpa using hj
      simpa using (ih k m hk hm).cons x

/-- aswap preserves the size. -/
theorem aswap_size (arr : Array α) (i j : Nat) : (aswap arr i j).size = arr.size := by
  unfold aswap; split <;> simp

/-- aswap permutes the underlying list. -/
theorem aswap_perm (arr : Array α) (i j : Nat) : (aswap arr i j).toList ~ arr.toList := by
  unfold aswap; split
  · rename_i h
    rw [Array.toList_set, Array.toList_set]
    exact set_set_swap_perm arr.toList i j (by simpa using h.1) (by simpa using h.2)
  · exact List.Perm.refl _

/-- insertionSort inner loop permutes. -/
theorem insertionInner_perm (lt : α → α → Bool) (a : Nat) (j : Nat) :
    ∀ (arr : Array α), (insertionInner lt a arr j).toList ~ arr.toList := by
  induction j with
  | zero => intro arr; exact List.Perm.refl _
  | succ j ih =>
    intro arr
    rw [insertionInner]
    split
    · exact (ih _).trans (aswap_perm _ _ _)
    · exact List.Perm.refl _

/-- insertionSort outer loop permutes. -/
theorem insertionGo_perm (lt : α → α → Bool) (a : Nat) (n : Nat) :
    ∀ (i : Nat) (arr : Array α), (insertionGo lt a n i arr).toList ~ arr.toList := by
  induction n with
  | zero => intro i arr; exact List.Perm.refl _
  | succ n ih =>
    intro i arr
    rw [insertionGo]
    exact (ih _ _).trans (insertionInner_perm lt a i arr)

/-- insertionSort permutes. -/
theorem insertionSort_perm (lt : α → α → Bool) (arr : Array α) (a b : Nat) :
    (insertionSort lt arr a b).toList ~ arr.toList :=
  insertionGo_perm lt a _ _ arr

/-- siftDown loop permutes. -/
theorem siftDownGo_perm (lt : α → α → Bool) (hi first : Nat) (fuel : Nat) :
    ∀ (root : Nat) (arr : Array α), (siftDownGo lt hi first fuel root arr).toList ~ arr.toList := by
  induction fuel with
  | zero => intro root arr; exact List.Perm.refl _
  | succ fuel ih =>
    intro root arr
    rw [siftDownGo]
    dsimp only
    split
    · exact List.Perm.refl _
    · split
      · exact List.Perm.refl _
      · exact (ih _ _).trans (aswap_perm _ _ _)

/-- siftDown permutes. -/
theorem siftDown_perm (lt : α → α → Bool) (arr : Array α) (lo hi first : Nat) :
    (siftDown lt arr lo hi first).toList ~ arr.toList :=
  siftDownGo_perm lt hi first _ lo arr

/-- heapSort heapify loop permutes. -/
theorem heapLoop1_perm (lt : α → α → Bool) (hi first : Nat) (n : Nat) :
    ∀ (arr : Array α), (heapLoop1 lt hi first n arr).toList ~ arr.toList := by
  induction n with
  | zero => intro arr; exact List.Perm.refl _
  | succ n ih =>
    intro arr
    rw [heapLoop1]
    exact (ih _).trans (siftDown_perm lt arr n hi first)

/-- heapSort extraction loop permutes. -/
theorem heapLoop2_perm (lt : α → α → Bool) (first : Nat) (n : Nat) :
    ∀ (arr : Array α), (heapLoop2 lt first n arr).toList ~ arr.toList := by
  induction n with
  | zero => intro arr; exact List.Perm.refl _
  | succ n ih =>
    intro arr
    rw [heapLoop2]
    exact (ih _).trans ((siftDown_perm lt _ 0 n first).trans (aswap_perm arr first (first + n)))

/-- heapSort permutes. -/
theorem heapSort_perm (lt : α → α → Bool) (arr : Array α) (a b : Nat) :
    (heapSort lt arr a b).toList ~ arr.toList := by
  unfold heapSort
  exact (heapLoop2_perm lt a _ _).trans (heapLoop1_perm lt (b - a) a _ arr)

/-- condSwap permutes. -/
theorem condSwap_perm (lt : α → α → Bool) (arr : Array α) (i j : Nat) :
    (condSwap lt arr i j).toList ~ arr.toList := by
  unfold condSwap
  split
  · exact aswap_perm _ _ _
  · exact List.Perm.refl _

/-- medianOfThree permutes. -/
theorem medianOfThree_perm (lt : α → α → Bool) (arr : Array α) (m1 m0 m2 : Nat) :
    (medianOfThree lt arr m1 m0 m2).toList ~ arr.toList := by
  unfold medianOfThree
  dsimp only
  split
  · exact (condSwap_perm _ _ _ _).trans ((aswap_perm _ _ _).trans (condSwap_perm _ _ _ _))
  · exact condSwap_perm _ _ _ _

/-- Partition outer loop permutes. -/
theorem partitionLoop_perm (lt : α → α → Bool) (pivot hi : Nat) (fuel : Nat) :
    ∀ (b c : Nat) (arr : Array α), (partitionLoop lt pivot hi fuel b c arr).2.2.toList ~ arr.toList := by
  induction fuel with
  | zero => intro b c arr; exact List.Perm.refl _
  | succ fuel ih =>
    intro b c arr
    rw [partitionLoop]
    split
    · exact List.Perm.refl _
    · exact (ih _ _ _).trans (aswap_perm _ _ _)

/-- Protect phase outer loop permutes. -/
theorem protectLoop_perm (lt : α → α → Bool) (pivot : Nat) (fuel : Nat) :
    ∀ (a b : Nat) (arr : Array α), (protectLoop lt pivot fuel a b arr).2.2.toList ~ arr.toList := by
  induction fuel with
  | zero => intro a b arr; exact List.Perm.refl _
  | succ fuel ih =>
    intro a b arr
    rw [protectLoop]
    split
    · exact List.Perm.refl _
    · exact (ih _ _ _).trans (aswap_perm _ _ _)

/-- The duplicate-detection block permutes. -/
theorem doPivotDups_perm (lt : α → α → Bool) (arr : Array α) (pivot m b c hi : Nat) :
    (doPivotDups lt arr pivot m b c hi).2.2.1.toList ~ arr.toList := by
  unfold doPivotDups
  dsimp only
  split <;> split <;> split <;>
    first
      | exact List.Perm.refl _
      | exact aswap_perm _ _ _
      | exact (aswap_perm _ _ _).trans (aswap_perm _ _ _)

/-- Pivot selection permutes. -/
theorem doPivotInit_perm (lt : α → α → Bool) (arr0 : Array α) (lo hi : Nat) :
    (doPivotInit lt arr0 lo hi).toList ~ arr0.toList := by
  unfold doPivotInit
  dsimp only
  refine (medianOfThree_perm _ _ _ _ _).trans ?_
  split
  · exact (medianOfThree_perm _ _ _ _ _).trans
      ((medianOfThree_perm _ _ _ _ _).trans (medianOfThree_perm _ _ _ _ _))
  · exact List.Perm.refl _

/-- The scanning phase permutes. -/
theorem doPivotScan_perm (lt : α → α → Bool) (arrB : Array α) (lo hi : Nat) :
    (doPivotScan lt arrB lo hi).2.2.2.toList ~ arrB.toList := by
  unfold doPivotScan
  exact partitionLoop_perm lt lo hi hi _ _ arrB

/-- doPivot permutes. -/
theorem doPivot_perm (lt : α → α → Bool) (arr0 : Array α) (lo hi : Nat) :
    (doPivot lt arr0 lo hi).2.2.toList ~ arr0.toList := by
  unfold doPivot
  dsimp only
  refine (aswap_perm _ _ _).trans ?_
  have hC : (doPivotScan lt (doPivotInit lt arr0 lo hi) lo hi).2.2.2.toList ~ arr0.toList :=
    (doPivotScan_perm lt _ lo hi).trans (doPivotInit_perm lt arr0 lo hi)
  split
  · -- the quad branch ran doPivotDups
    split
    · exact (protectLoop_perm lt lo _ _ _ _).trans ((doPivotDups_perm lt _ lo _ _ _ hi).trans hC)
    · exact (doPivotDups_perm lt _ lo _ _ _ hi).trans hC
  · split
    · exact (protectLoop_perm lt lo _ _ _ _).trans hC
    · exact hC

/-- The gap-6 pass permutes. -/
theorem shellGo_perm (lt : α → α → Bool) (n : Nat) :
    ∀ (i : Nat) (arr : Array α), (shellGo lt n i arr).toList ~ arr.toList := by
  induction n with
  | zero => intro i arr; exact List.Perm.refl _
  | succ n ih =>
    intro i arr
    rw [shellGo]
    refine (ih _ _).trans ?_
    split
    · exact aswap_perm _ _ _
    · exact List.Perm.refl _

/-- quickSort permutes. -/
theorem quickSortGo_perm (lt : α → α → Bool) (fuel : Nat) :
    ∀ (arr : Array α) (a b maxDepth : Nat), (quickSortGo lt fuel arr a b maxDepth).toList ~ arr.toList := by
  induction fuel with
  | zero => intro arr a b maxDepth; exact List.Perm.refl _
  | succ fuel ih =>
    intro arr a b maxDepth
    rw [quickSortGo]
    split
    · split
      · exact heapSort_perm lt arr a b
      · dsimp only
        split
        · exact (ih _ _ _ _).trans ((ih _ _ _ _).trans (doPivot_perm lt arr a b))
        · exact (ih _ _ _ _).trans ((ih _ _ _ _).trans (doPivot_perm lt arr a b))
    · split
      · exact (insertionSort_perm lt _ a b).trans (shellGo_perm lt _ _ arr)
      · exact List.Perm.refl _

/-- sort.Slice permutes. -/
theorem sortSlice_perm (lt : α → α → Bool) (arr : Array α) :
    (sortSlice lt arr).toList ~ arr.toList :=
  quickSortGo_perm lt _ arr 0 arr.size (maxDepthFn arr.size)

/-- Element description of aswap, in optional-lookup form. -/
theorem aswap_getElem? (arr : Array α) (i j k : Nat) (hi : i < arr.size) (hj : j < arr.size) :
    (aswap arr i j)[k]? = if j = k then arr[i]? else if i = k then arr[j]? else arr[k]? := by
  unfold aswap
  rw [dif_pos (And.intro hi hj)]
  rw [Array.getElem?_eq_getElem?_toList, Array.toList_set, Array.toList_set]
  rcases eq_or_ne j k with rfl | hjk
  · rw [if_pos rfl]
    rw [List.getElem?_set_self (by simpa using hj)]
    rw [Array.getElem?_eq_getElem hi]
    rfl
  · rw [if_neg hjk, List.getElem?_set_ne hjk]
    rcases eq_or_ne i k with rfl | hik
    · rw [if_pos rfl]
      rw [List.getElem?_set_self (by simpa using hi)]
      rw [Array.getElem?_eq_getElem hj]
      rfl
    · rw [if_neg hik, List.getElem?_set_ne hik]
      exact (Array.getElem?_eq_getElem?_toList arr k).symm

/-- revLoop preserves the size. -/
theorem revLoop_size (n : Nat) (m : Nat) : ∀ (arr : Array α), (revLoop n m arr).size = arr.size := by
  induction m with
  | zero => intro arr; rfl
  | succ m ih => intro arr; rw [revLoop, ih, aswap_size]

/-- Element description of the reversal loop: after m iterations the outer
m elements on each side are mirrored and the middle is untouched. -/
theorem revLoop_getElem? (n : Nat) (m : Nat) : ∀ (arr : Array α), arr.size = n → m ≤ n / 2 →
    ∀ (k : Nat), k < n →
      (revLoop n m arr)[k]? = if k < m ∨ n - m ≤ k then arr[n - 1 - k]? else arr[k]? := by
  induction m with
  | zero =>
    intro arr hsize hm k hk
    rw [revLoop, if_neg (by omega)]
  | succ m ih =>
    intro arr hsize hm k hk
    rw [revLoop]
    rw [ih (aswap arr m (n - 1 - m)) (by rw [aswap_size]; exact hsize) (by omega) k hk]
    have hmn : m < arr.size := by omega
    have hjn : n - 1 - m < arr.size := by omega
    rcases Nat.lt_trichotomy k m with hkm | rfl | hkm
    · rw [if_pos (Or.inl hkm), if_pos (Or.inl (by omega))]
      rw [aswap_getElem? arr m (n - 1 - m) (n - 1 - k) hmn hjn]
      rw [if_neg (by omega), if_neg (by omega)]
    · rw [if_neg (by omega), if_pos (Or.inl (by omega))]
      rw [aswap_getElem? arr k (n - 1 - k) k hmn hjn]
      rw [if_neg (by omega), if_pos rfl]
    · by_cases h2 : n - m ≤ k
      · rw [if_pos (Or.inr h2), if_pos (Or.inr (by omega))]
        rw [aswap_getElem? arr m (n - 1 - m) (n - 1 - k) hmn hjn]
        rw [if_neg (by omega), if_neg (by omega)]
      · by_cases h3 : k = n - 1 - m
        · rw [if_neg (by omega), if_pos (Or.inr (by omega))]
          rw [aswap_getElem? arr m (n - 1 - m) k hmn hjn]
          rw [if_pos h3.symm]
          have hkm2 : n - 1 - k = m := by omega
          rw [hkm2]
        · rw [if_neg (by omega), if_neg (by omega)]
          rw [aswap_getElem? arr m (n - 1 - m) k hmn hjn]
          rw [if_neg (by omega), if_neg (by omega)]

/-- The in-place reversal loop computes exactly List.reverse. -/
theorem reversedFn_toList (arr : Array α) : (reversedFn arr).toList = arr.toList.reverse := by
  apply List.ext_getElem
  · simp [reversedFn, revLoop_size]
  intro k hk1 hk2
  have hk : k < arr.size := by
    have := hk1
    simp [reversedFn, revLoop_size] at this
    exact this
  have key : (revLoop arr.size (arr.size / 2) arr)[k]? = arr[arr.size - 1 - k]? := by
    rw [revLoop_getElem? arr.size (arr.size / 2) arr rfl (Nat.le_refl _) k hk]
    by_cases h : k < arr.size / 2 ∨ arr.size - arr.size / 2 ≤ k
    · rw [if_pos h]
    · rw [if_neg h]
      have hmid : arr.size - 1 - k = k := by omega
      rw [hmid]
  have hlt : arr.size - 1 - k < arr.size := by omega
  have lhs : ((reversedFn arr).toList)[k]? = some (((reversedFn arr).toList)[k]) :=
    List.getElem?_eq_getElem hk1
  have bridge : ((reversedFn arr).toList)[k]? = arr[arr.size - 1 - k]? := by
    rw [← Array.getElem?_eq_getElem?_toList]
    exact key
  have rhs : arr[arr.size - 1 - k]? = some (arr.toList[arr.size - 1 - k]) := by
    rw [Array.getElem?_eq_getElem hlt]
    rw [← Array.getElem_toList (by simpa using hlt)]
  have : some (((reversedFn arr).toList)[k]) = some (arr.toList[arr.size - 1 - k]) := by
    rw [← lhs, bridge, rhs]
  have hsome := Option.some.inj this
  rw [hsome, List.getElem_reverse]

end SortLemmas

/-- Whatever the order string and reverse flag, sortItemOrder permutes its
input. -/
theorem sortItemOrder_perm (stars : List Star) (order : String) (reverse : Bool) :
    sortItemOrder stars order reverse ~ stars := by
  unfold sortItemOrder
  dsimp only
  have hrev : ∀ arr : Array Star, (if reverse = true then reversedFn arr else arr).toList ~ arr.toList := by
    intro arr
    split
    · rw [reversedFn_toList]
      exact List.reverse_perm _
    · exact List.Perm.refl _
  refine (hrev _).trans ?_
  split
  · exact List.Perm.of_eq (Array.toList_toArray stars)
  · simpa using sortSlice_perm ltAuthorName stars.toArray
  · simpa using sortSlice_perm ltCreatedAt stars.toArray
  · simpa using sortSlice_perm ltRepositoryName stars.toArray
  · simpa using sortSlice_perm ltUpdatedAt stars.toArray
  · exact List.Perm.of_eq (Array.toList_toArray stars)

/-- The reverse flag composes with the comparator: sorting with the flag
set equals sorting without it and then reversing the result. -/
theorem sortItemOrder_true_eq_reverse (stars : List Star) (order : String) :
    sortItemOrder stars order true = (sortItemOrder stars order false).reverse := by
  unfold sortItemOrder
  dsimp only
  rw [if_pos rfl, if_neg Bool.false_ne_true, reversedFn_toList]

/-- The added-at case with the reverse flag unset is the identity. -/
theorem sortItemOrder_added_at (stars : List Star) :
    sortItemOrder stars "added-at" false = stars := by
  unfold sortItemOrder
  dsimp only
  rw [if_neg Bool.false_ne_true]
  exact Array.toList_toArray stars

/-- Any unrecognized order string with the reverse flag unset is also the
identity: the Go switch has no default case. -/
theorem sortItemOrder_default (stars : List Star) (order : String)
    (h1 : order ≠ "added-at") (h2 : order ≠ "author-name") (h3 : order ≠ "created-at")
    (h4 : order ≠ "repository-name") (h5 : order ≠ "updated-at") :
    sortItemOrder stars order false = stars := by
  unfold sortItemOrder
  dsimp only
  rw [if_neg Bool.false_ne_true]
  split
  · exact Array.toList_toArray stars
  · exact absurd rfl h2
  · exact absurd rfl h3
  · exact absurd rfl h4
  · exact absurd rfl h5
  · exact Array.toList_toArray stars

/-! Pagination lemmas: the behaviour of the retrieval loop over a run of
well-formed non-empty pages, followed by an arbitrary next response. -/

/-- Running the loop across a block of non-empty, well-decoded pages
prepends their concatenation (and their page numbers) to whatever the loop
does from the following page on. -/
theorem aggregateLoop_append (ps : List (List Star)) (fuel : Nat) (fetch : Nat → PageResponse) :
    ∀ (i : Nat), (∀ (k : Nat) (hk : k < ps.length), fetch (i + k) = .body (some ps[k]) ∧ ps[k] ≠ []) →
    aggregateLoop fetch (ps.length + (fuel + 1)) i =
      (aggregateLoop fetch (fuel + 1) (i + ps.length)).map
        (fun r => r.map (fun p => (ps.flatten ++ p.1, (List.range' i ps.length) ++ p.2))) := by
  induction ps with
  | nil =>
    intro i h
    simp only [List.length_nil, List.flatten_nil, List.range'_zero, Nat.zero_add, Nat.add_zero,
      List.nil_append]
    rcases hres : aggregateLoop fetch (fuel + 1) i with _ | res
    · rfl
    · rcases res with e | p
      · rfl
      · rfl
  | cons p ps2 ih =>
    intro i h
    have hfirst := h 0 (by simp)
    have hfetch : fetch i = .body (some p) := by simpa using hfirst.1
    have hne : p ≠ [] := by simpa using hfirst.2
    have hlen : (p :: ps2).length + (fuel + 1) = (ps2.length + (fuel + 1)) + 1 := by
      simp [List.length_cons]; omega
    rw [hlen, aggregateLoop, hfetch]
    have hshift : ∀ (k : Nat) (hk : k < ps2.length),
        fetch (i + 1 + k) = .body (some ps2[k]) ∧ ps2[k] ≠ [] := by
      intro k hk
      have := h (k + 1) (by simpa using Nat.succ_lt_succ hk)
      simpa [Nat.add_assoc, Nat.add_comm 1 k] using this
    rw [ih (i + 1) hshift]
    have hget : getStarsPage (.body (some p)) = .ok (some p) := by
      unfold getStarsPage
      simp [List.isEmpty_eq_true, hne]
    rw [hget]
    have hidx : i + 1 + ps2.length = i + (p :: ps2).length := by
      simp [List.length_cons]; omega
    rw [hidx]
    rcases hres : aggregateLoop fetch (fuel + 1) (i + (p :: ps2).length) with _ | res
    · rfl
    · rcases res with e | q
      · rfl
      · simp [Except.map, List.range'_succ, List.flatten_cons, List.append_assoc]

/-- Full-run description: pages 1 through N-1 decode non-empty, page N
decodes to the empty array; the run returns their concatenation and the
fetch calls are exactly pages 1,...,N. -/
theorem aggregate_pages (ps : List (List Star)) (fetch : Nat → PageResponse)
    (hp : ∀ (k : Nat) (hk : k < ps.length), fetch (k + 1) = .body (some ps[k]) ∧ ps[k] ≠ [])
    (hlast : fetch (ps.length + 1) = .body (some [])) :
    aggregate fetch (ps.length + 1) = some (.ok (ps.flatten, List.range' 1 (ps.length + 1))) := by
  unfold aggregate
  have h1 : ∀ (k : Nat) (hk : k < ps.length), fetch (1 + k) = .body (some ps[k]) ∧ ps[k] ≠ [] := by
    intro k hk
    simpa [Nat.add_comm 1 k] using hp k hk
  have := aggregateLoop_append ps 0 fetch 1 h1
  rw [this]
  rw [aggregateLoop]
  have hfetch : fetch (1 + ps.length) = .body (some []) := by
    rw [Nat.add_comm 1 ps.length]; exact hlast
  rw [hfetch]
  have hget : getStarsPage (.body (some ([] : List Star))) = .ok none := by
    unfold getStarsPage; simp
  rw [hget]
  simp only [Option.map_some, Except.map]
  have : List.range' 1 ps.length ++ [1 + ps.length] = List.range' 1 (ps.length + 1) := by
    rw [List.range'_concat]
    simp [Nat.add_comm]
  simp [this]

/-- A transport failure on the page after a block of good pages is fatal:
the loop propagates the log.Fatal error and no star list is produced. -/
theorem aggregate_transport_fatal (ps : List (List Star)) (fetch : Nat → PageResponse)
    (hp : ∀ (k : Nat) (hk : k < ps.length), fetch (k + 1) = .body (some ps[k]) ∧ ps[k] ≠ [])
    (hlast : fetch (ps.length + 1) = .transportError) :
    aggregate fetch (ps.length + 1) = some (.error ()) := by
  unfold aggregate
  have h1 : ∀ (k : Nat) (hk : k < ps.length), fetch (1 + k) = .body (some ps[k]) ∧ ps[k] ≠ [] := by
    intro k hk
    simpa [Nat.add_comm 1 k] using hp k hk
  have := aggregateLoop_append ps 0 fetch 1 h1
  rw [this]
  rw [aggregateLoop]
  have hfetch : fetch (1 + ps.length) = .transportError := by
    rw [Nat.add_comm 1 ps.length]; exact hlast
  rw [hfetch]
  rfl

/-- A malformed payload on the page after a block of good pages is not
fatal: json.Unmarshal leaves the page empty, the loop stops, and the run
returns exactly the records of the earlier pages. -/
theorem aggregate_malformed_keeps_prefix_pages (ps : List (List Star)) (fetch : Nat → PageResponse)
    (hp : ∀ (k : Nat) (hk : k < ps.length), fetch (k + 1) = .body (some ps[k]) ∧ ps[k] ≠ [])
    (hlast : fetch (ps.length + 1) = .body none) :
    aggregate fetch (ps.length + 1) = some (.ok (ps.flatten, List.range' 1 (ps.length + 1))) := by
  unfold aggregate
  have h1 : ∀ (k : Nat) (hk : k < ps.length), fetch (1 + k) = .body (some ps[k]) ∧ ps[k] ≠ [] := by
    intro k hk
    simpa [Nat.add_comm 1 k] using hp k hk
  have := aggregateLoop_append ps 0 fetch 1 h1
  rw [this]
  rw [aggregateLoop]
  have hfetch : fetch (1 + ps.length) = .body none := by
    rw [Nat.add_comm 1 ps.length]; exact hlast
  rw [hfetch]
  have hget : getStarsPage (.body (none : Option (List Star))) = .ok none := by
    unfold getStarsPage; simp
  rw [hget]
  simp only [Option.map_some, Except.map]
  have : List.range' 1 ps.length ++ [1 + ps.length] = List.range' 1 (ps.length + 1) := by
    rw [List.range'_concat]
    simp [Nat.add_comm]
  simp [this]

/-! Truncation lemmas. -/

/-- For widths of at least 25 columns the truncation step never fails. -/
theorem truncateDescription_isSome_of_wide (width : Nat) (desc : String) (h : 25 ≤ width) :
    (truncateDescription width desc).isSome = true := by
  unfold truncateDescription
  split
  · rename_i hcond
    rw [if_pos (by constructor <;> omega)]
    rfl
  · rfl

/-- For widths of at least 25 columns, a description longer than
width - 22 is replaced by its first width - 25 characters plus the
three-character ellipsis marker, so the result has length width - 22
exactly. -/
theorem truncateDescription_truncates (width : Nat) (desc : String) (h : 25 ≤ width)
    (hlong : (desc.length : Int) > (width : Int) - 22) :
    truncateDescription width desc = some (String.mk (desc.data.take (width - 25)) ++ "...")
    ∧ (String.mk (desc.data.take (width - 25)) ++ "...").length = width - 22 := by
  constructor
  · unfold truncateDescription
    rw [if_pos hlong, if_pos (by constructor <;> omega)]
    have hn : ((width : Int) - 25).toNat = width - 25 := by omega
    rw [hn]
  · have hd : width - 25 ≤ desc.length := by
      have : desc.length = desc.data.length := rfl
      omega
    have hlen : (String.mk (desc.data.take (width - 25)) ++ "...").length
        = (desc.data.take (width - 25)).length + 3 := by
      rw [String.length_append]
      rfl
    rw [hlen, List.length_take]
    have : desc.length = desc.data.length := rfl
    omega

/-- A description of length at most width - 22 is left unchanged. -/
theorem truncateDescription_id_of_short (width : Nat) (desc : String)
    (hshort : ¬ (desc.length : Int) > (width : Int) - 22) :
    truncateDescription width desc = some desc := by
  unfold truncateDescription
  rw [if_neg hshort]

/-! Fuzzy-match lemmas: fuzzy.Match implements exactly the subsequence
relation List.Sublist. -/

/-- When the scan finds c, the target splits around its first occurrence. -/
theorem scanFrom_some (c : Char) : ∀ (t t2 : List Char), scanFrom c t = some t2 →
    ∃ pre, t = pre ++ c :: t2 := by
  intro t
  induction t with
  | nil => intro t2 h; simp [scanFrom] at h
  | cons d t3 ih =>
    intro t2 h
    rw [scanFrom] at h
    by_cases hd : d = c
    · rw [if_pos hd] at h
      refine ⟨[], ?_⟩
      have := Option.some.inj h
      simp [hd, this]
    · rw [if_neg hd] at h
      obtain ⟨pre, hp⟩ := ih t2 h
      exact ⟨d :: pre, by simp [hp]⟩

/-- When the scan fails, c does not occur in the target. -/
theorem scanFrom_none (c : Char) : ∀ (t : List Char), scanFrom c t = none → c ∉ t := by
  intro t
  induction t with
  | nil => intro _; simp
  | cons d t3 ih =>
    intro h hmem
    rw [scanFrom] at h
    by_cases hd : d = c
    · rw [if_pos hd] at h
      cases h
    · rw [if_neg hd] at h
      rcases List.mem_cons.mp hmem with heq | hmem2
      · exact hd heq.symm
      · exact ih h hmem2

/-- Greedy optimality: if c :: s embeds in t, then s embeds in the suffix
of t after the first occurrence of c. -/
theorem sublist_scanFrom (c : Char) (s : List Char) : ∀ (t t2 : List Char),
    (c :: s) <+ t → scanFrom c t = some t2 → s <+ t2 := by
  intro t
  induction t with
  | nil => intro t2 h _; cases h
  | cons d t3 ih =>
    intro t2 h hs
    rw [scanFrom] at hs
    by_cases hd : d = c
    · rw [if_pos hd] at hs
      have ht2 : t3 = t2 := Option.some.inj hs
      subst ht2
      rw [hd] at h
      cases h with
      | cons _ h2 => exact (List.sublist_cons_self c s).trans h2
      | cons₂ _ h2 => exact h2
    · rw [if_neg hd] at hs
      have h2 : (c :: s) <+ t3 := by
        cases h with
        | cons _ h3 => exact h3
        | cons₂ _ h3 => exact absurd rfl hd
      exact ih t2 h2 hs

/-- The matching loop decides the subsequence relation. -/
theorem matchLoop_iff (s : List Char) : ∀ (t : List Char), matchLoop s t = true ↔ s <+ t := by
  induction s with
  | nil => intro t; simp [matchLoop, List.nil_sublist]
  | cons c s2 ih =>
    intro t
    cases hscan : scanFrom c t with
    | none =>
      rw [matchLoop, hscan]
      simp only [Bool.false_eq_true, false_iff]
      intro h
      exact (scanFrom_none c t hscan) (h.subset (List.mem_cons_self c s2))
    | some t2 =>
      rw [matchLoop, hscan]
      constructor
      · intro h
        obtain ⟨pre, rfl⟩ := scanFrom_some c t t2 hscan
        have hs : s2 <+ t2 := (ih t2).mp h
        have hcc : (c :: s2) <+ (c :: t2) := List.Sublist.cons₂ c hs
        refine hcc.trans ?_
        have happ := (List.nil_sublist pre).append (List.Sublist.refl (c :: t2))
        rw [List.nil_append] at happ
        exact happ
      · intro h
        exact (ih t2).mpr (sublist_scanFrom c s2 t t2 h hscan)

/-- fuzzy.Match decides the subsequence relation on the rune sequences. -/
theorem fuzzyMatch_iff (source target : String) :
    fuzzyMatch source target = true ↔ source.data <+ target.data := by
  unfold fuzzyMatch
  split
  · rename_i hlen
    simp only [Bool.false_eq_true, false_iff]
    intro h
    have hle := h.length_le
    simp only [String.length] at hlen
    omega
  · split
    · rename_i heq
      subst heq
      simp [List.Sublist.refl]
    · exact matchLoop_iff source.data target.data

/-- The underlying character list of the normalization. -/
theorem normalize_data (s : String) :
    (normalize s).data = (s.data.map Char.toLower).filter (fun c => c ≠ ' ') := rfl

/-- Visibility is exactly: normalized query embeds in normalized name. -/
theorem searcherMatch_iff (input : String) (star : Star) :
    searcherMatch input star = true ↔ (normalize input).data <+ (normalize star.FullName).data :=
  fuzzyMatch_iff _ _

/-- Appending one typed character can only shrink the visible set. -/
theorem searcherMatch_push_mono (q : String) (c : Char) (star : Star)
    (h : searcherMatch (q.push c) star = true) : searcherMatch q star = true := by
  rw [searcherMatch_iff] at h
  rw [searcherMatch_iff]
  have hsub : (normalize q).data <+ (normalize (q.push c)).data := by
    rw [normalize_data, normalize_data, String.data_push]
    simp only [List.map_append, List.filter_append]
    exact List.sublist_append_left _ _
  exact hsub.trans h

/-! Sortedness of the ported sort.  The development is parametric in the
comparator lt, assumed to be a strict weak order: irreflexive, transitive,
and negatively transitive.  All four comparators of sortItemOrder are key
comparators under a strict total order on the key, which satisfies these.
The output order is expressed with ISorted, and value properties cross
permutation boundaries through the slice aslice. -/

section SortedProofs

variable {α : Type} (lt : α → α → Bool)

/-- Asymmetry, from irreflexivity and transitivity. -/
theorem lt_asymm_of (hirr : ∀ x, lt x x = false)
    (htr : ∀ x y z, lt x y = true → lt y z = true → lt x z = true)
    (x y : α) (h : lt x y = true) : lt y x = false := by
  cases hyx : lt y x with
  | false => rfl
  | true =>
    have := htr x y x h hyx
    rw [hirr x] at this
    cases this

/-- Transitivity of the complement order. -/
theorem lt_le_trans_of (hng : ∀ x y z, lt x z = true → lt x y = true ∨ lt y z = true)
    (x y z : α) (h1 : lt y x = false) (h2 : lt z y = false) :
    lt z x = false := by
  cases hzx : lt z x with
  | false => rfl
  | true =>
    rcases hng z y x hzx with h | h
    · rw [h2] at h; cases h
    · rw [h1] at h; cases h

/-- altb on two explicit elements. -/
theorem altb_some {arr : Array α} {u v : Nat} {x y : α}
    (hx : arr[u]? = some x) (hy : arr[v]? = some y) : altb lt arr u v = lt x y := by
  simp [altb, hx, hy]

/-- altb is false when the first index is out of range. -/
theorem altb_none_left {arr : Array α} {u v : Nat} (hx : arr[u]? = none) :
    altb lt arr u v = false := by
  simp [altb, hx]

/-- altb is false when the second index is out of range. -/
theorem altb_none_right {arr : Array α} {u v : Nat} (hy : arr[v]? = none) :
    altb lt arr u v = false := by
  unfold altb
  rw [hy]
  rcases arr[u]? with _ | x <;> rfl

/-- altb asymmetry. -/
theorem altb_asymm (hirr : ∀ x, lt x x = false)
    (htr : ∀ x y z, lt x y = true → lt y z = true → lt x z = true)
    {arr : Array α} {u v : Nat} (h : altb lt arr u v = true) :
    altb lt arr v u = false := by
  rcases hu : arr[u]? with _ | x
  · exact altb_none_right lt hu
  · rcases hv : arr[v]? with _ | y
    · exact altb_none_left lt hv
    · rw [altb_some lt hu hv] at h
      rw [altb_some lt hv hu]
      exact lt_asymm_of lt hirr htr x y h

/-- Sortedness glues across a cut point. -/
theorem isorted_of_blocks {arr : Array α} {a m b : Nat}
    (h1 : ISorted lt arr a m) (h2 : ISorted lt arr m b)
    (hcross : ∀ i j, a ≤ i → i < m → m ≤ j → j < b → altb lt arr j i = false) :
    ISorted lt arr a b := by
  intro i j hai hij hjb
  by_cases hjm : j < m
  · exact h1 i j hai hij hjm
  · by_cases him : m ≤ i
    · exact h2 i j him hij hjb
    · exact hcross i j hai (by omega) (by omega) hjb

/-- A range with at most one position is sorted. -/
theorem isorted_small {arr : Array α} {a b : Nat} (h : b ≤ a + 1) :
    ISorted lt arr a b := by
  intro i j hai hij hjb
  omega

/-- Sortedness only depends on the values in the range. -/
theorem isorted_congr {arr arr2 : Array α} {a b : Nat}
    (heq : ∀ k, a ≤ k → k < b → arr2[k]? = arr[k]?)
    (h : ISorted lt arr a b) : ISorted lt arr2 a b := by
  intro i j hai hij hjb
  have hj := heq j (by omega) hjb
  have hi := heq i hai (by omega)
  unfold altb
  rw [hi, hj]
  have := h i j hai hij hjb
  unfold altb at this
  exact this

/-- Optional lookup inside a slice. -/
theorem getElem?_aslice (arr : Array α) (a b k : Nat) :
    (aslice arr a b)[k]? = if k < b - a then arr[a + k]? else none := by
  unfold aslice
  rw [List.getElem?_take]
  split
  · rw [List.getElem?_drop]
    exact (Array.getElem?_eq_getElem?_toList arr (a + k)).symm
  · rfl

/-- Membership in a slice is existence of an in-range position. -/
theorem mem_aslice (arr : Array α) (a b : Nat) (x : α) :
    x ∈ aslice arr a b ↔ ∃ k, a ≤ k ∧ k < b ∧ arr[k]? = some x := by
  rw [List.mem_iff_getElem?]
  constructor
  · rintro ⟨n, hn⟩
    rw [getElem?_aslice] at hn
    by_cases h : n < b - a
    · rw [if_pos h] at hn
      exact ⟨a + n, by omega, by omega, hn⟩
    · rw [if_neg h] at hn
      cases hn
  · rintro ⟨k, hak, hkb, hk⟩
    refine ⟨k - a, ?_⟩
    rw [getElem?_aslice, if_pos (by omega)]
    have : a + (k - a) = k := by omega
    rw [this]
    exact hk

/-- A slice decomposes at an interior point. -/
theorem aslice_append (arr : Array α) (a m b : Nat) (h1 : a ≤ m) (h2 : m ≤ b) :
    aslice arr a b = aslice arr a m ++ aslice arr m b := by
  unfold aslice
  have hb : b - a = (m - a) + (b - m) := by omega
  rw [hb, List.take_add, List.drop_drop]
  have : a + (m - a) = m := by omega
  rw [this]

/-- Arrays that agree pointwise from some bound on have equal drops of
their lists at that bound. -/
theorem drop_toList_eq_of (arr1 arr2 : Array α) (b : Nat)
    (h : ∀ k, b ≤ k → arr1[k]? = arr2[k]?) :
    arr1.toList.drop b = arr2.toList.drop b := by
  apply List.ext_getElem?
  intro n
  rw [List.getElem?_drop, List.getElem?_drop,
    ← Array.getElem?_eq_getElem?_toList, ← Array.getElem?_eq_getElem?_toList]
  exact h (b + n) (by omega)

/-- Arrays that agree pointwise below some bound have equal takes of their
lists at that bound. -/
theorem take_toList_eq_of (arr1 arr2 : Array α) (a : Nat)
    (h : ∀ k, k < a → arr1[k]? = arr2[k]?) :
    arr1.toList.take a = arr2.toList.take a := by
  apply List.ext_getElem?
  intro n
  rw [List.getElem?_take, List.getElem?_take]
  split
  · rw [← Array.getElem?_eq_getElem?_toList, ← Array.getElem?_eq_getElem?_toList]
    exact h n (by omega)
  · rfl

/-- A permutation that fixes everything outside [a, b) pointwise restricts
to a permutation of the slices. -/
theorem aslice_perm_of_outside (arr1 arr2 : Array α) (a b : Nat)
    (hperm : arr1.toList ~ arr2.toList)
    (hout : ∀ k, k < a ∨ b ≤ k → arr1[k]? = arr2[k]?) :
    aslice arr1 a b ~ aslice arr2 a b := by
  by_cases hab : b ≤ a
  · unfold aslice
    have : b - a = 0 := by omega
    rw [this]
    exact List.Perm.refl _
  · have hdec1 : arr1.toList = arr1.toList.take a ++ aslice arr1 a b ++ arr1.toList.drop b := by
      unfold aslice
      have hsplit : arr1.toList.drop a = (arr1.toList.drop a).take (b - a) ++ (arr1.toList.drop a).drop (b - a) := by
        rw [List.take_append_drop]
      rw [List.drop_drop] at hsplit
      have hba : a + (b - a) = b := by omega
      rw [hba] at hsplit
      rw [List.append_assoc, ← hsplit, List.take_append_drop]
    have hdec2 : arr2.toList = arr2.toList.take a ++ aslice arr2 a b ++ arr2.toList.drop b := by
      unfold aslice
      have hsplit : arr2.toList.drop a = (arr2.toList.drop a).take (b - a) ++ (arr2.toList.drop a).drop (b - a) := by
        rw [List.take_append_drop]
      rw [List.drop_drop] at hsplit
      have hba : a + (b - a) = b := by omega
      rw [hba] at hsplit
      rw [List.append_assoc, ← hsplit, List.take_append_drop]
    have htake : arr1.toList.take a = arr2.toList.take a :=
      take_toList_eq_of arr1 arr2 a (fun k hk => hout k (Or.inl hk))
    have hdrop : arr1.toList.drop b = arr2.toList.drop b :=
      drop_toList_eq_of arr1 arr2 b (fun k hk => hout k (Or.inr hk))
    have hp := hperm
    rw [hdec1, hdec2, htake, hdrop] at hp
    rw [List.append_assoc, List.append_assoc] at hp
    have hp2 := (List.perm_append_left_iff _).mp hp
    exact (List.perm_append_right_iff _).mp hp2

/-- Transfer of a value property over a whole range through a permutation
of the slice. -/
theorem range_prop_transfer (arr1 arr2 : Array α) (a b : Nat) (P : α → Prop)
    (hperm : aslice arr2 a b ~ aslice arr1 a b)
    (h : ∀ k, a ≤ k → k < b → ∀ x, arr1[k]? = some x → P x) :
    ∀ k, a ≤ k → k < b → ∀ x, arr2[k]? = some x → P x := by
  intro k hak hkb x hx
  have hmem : x ∈ aslice arr2 a b := (mem_aslice arr2 a b x).mpr ⟨k, hak, hkb, hx⟩
  have hmem1 : x ∈ aslice arr1 a b := hperm.subset hmem
  obtain ⟨k1, hk1a, hk1b, hk1⟩ := (mem_aslice arr1 a b x).mp hmem1
  exact h k1 hk1a hk1b x hk1

/-- An in-range optional lookup bound. -/
theorem getElem?_some_bound {arr : Array α} {k : Nat} {x : α} (h : arr[k]? = some x) :
    k < arr.size := by
  by_contra hk
  rw [Array.getElem?_len_le arr (by omega)] at h
  cases h

/-- In-range positions hold values. -/
theorem getElem?_total {arr : Array α} {k : Nat} (h : k < arr.size) :
    ∃ x, arr[k]? = some x :=
  ⟨arr.get ⟨k, h⟩, by rw [Array.getElem?_eq_getElem h]; rfl⟩

/-- Size equality out of a permutation of the element lists. -/
theorem size_eq_of_toList_perm {arr1 arr2 : Array α} (h : arr1.toList ~ arr2.toList) :
    arr1.size = arr2.size := by
  have := h.length_eq
  simpa using this

/-- Transitivity of the complement order at the level of indices. -/
theorem altb_le_trans (hng : ∀ x y z, lt x z = true → lt x y = true ∨ lt y z = true)
    {arr : Array α} {u v w : Nat} (hu : u < arr.size) (hv : v < arr.size)
    (h1 : altb lt arr v u = false) (h2 : altb lt arr w v = false) :
    altb lt arr w u = false := by
  obtain ⟨x, hx⟩ := getElem?_total hu
  obtain ⟨y, hy⟩ := getElem?_total hv
  rcases hw : arr[w]? with _ | z
  · exact altb_none_left lt hw
  · rw [altb_some lt hy hx] at h1
    rw [altb_some lt hw hy] at h2
    rw [altb_some lt hw hx]
    exact lt_le_trans_of lt hng x y z h1 h2

/-- aswap does not change positions other than the two swapped ones. -/
theorem aswap_getElem?_other (arr : Array α) (i j k : Nat) (h1 : k ≠ i) (h2 : k ≠ j) :
    (aswap arr i j)[k]? = arr[k]? := by
  unfold aswap
  split
  · rw [Array.getElem?_eq_getElem?_toList, Array.toList_set, Array.toList_set,
      List.getElem?_set_ne (Ne.symm h2), List.getElem?_set_ne (Ne.symm h1),
      ← Array.getElem?_eq_getElem?_toList]
  · rfl

/-- The left swapped position takes the right value. -/
theorem aswap_getElem?_left (arr : Array α) (i j : Nat) (hi : i < arr.size) (hj : j < arr.size) :
    (aswap arr i j)[i]? = arr[j]? := by
  rw [aswap_getElem? arr i j i hi hj]
  rcases eq_or_ne j i with rfl | hji
  · rw [if_pos rfl]
  · rw [if_neg hji, if_pos rfl]

/-- The right swapped position takes the left value. -/
theorem aswap_getElem?_right (arr : Array α) (i j : Nat) (hi : i < arr.size) (hj : j < arr.size) :
    (aswap arr i j)[j]? = arr[i]? := by
  rw [aswap_getElem? arr i j j hi hj, if_pos rfl]

/-! Insertion sort. -/

/-- The insertion inner loop does not touch positions below a or above the
hole. -/
theorem insertionInner_outside (a : Nat) : ∀ (h : Nat) (arr : Array α) (k : Nat),
    k < a ∨ h < k → (insertionInner lt a arr h)[k]? = arr[k]? := by
  intro h
  induction h with
  | zero => intro arr k hk; rfl
  | succ j ih =>
    intro arr k hk
    rw [insertionInner]
    split
    · rename_i hc
      rw [ih (aswap arr (j + 1) j) k (by omega)]
      exact aswap_getElem?_other arr (j + 1) j k (by omega) (by omega)
    · rfl

/-- The insertion outer loop does not touch positions below a or at or
beyond i + n. -/
theorem insertionGo_outside (a : Nat) : ∀ (n i : Nat) (arr : Array α) (k : Nat),
    k < a ∨ i + n ≤ k → (insertionGo lt a n i arr)[k]? = arr[k]? := by
  intro n
  induction n with
  | zero => intro i arr k hk; rfl
  | succ n ih =>
    intro i arr k hk
    rw [insertionGo]
    rw [ih (i + 1) _ k (by omega)]
    exact insertionInner_outside lt a i arr k (by omega)

/-- insertionSort does not touch positions outside [a, b). -/
theorem insertionSort_outside (arr : Array α) (a b k : Nat) (hk : k < a ∨ b ≤ k) :
    (insertionSort lt arr a b)[k]? = arr[k]? := by
  unfold insertionSort
  by_cases hab : b ≤ a + 1
  · have h0 : b - (a + 1) = 0 := by omega
    rw [h0]
    rfl
  · exact insertionGo_outside lt a (b - (a + 1)) (a + 1) arr k (by omega)

/-- Correctness of the insertion inner loop: inserting the element at the
hole into the sorted surroundings sorts the whole prefix up to i. -/
theorem insertionInner_sorted (hirr : ∀ x, lt x x = false)
    (htr : ∀ x y z, lt x y = true → lt y z = true → lt x z = true)
    (hng : ∀ x y z, lt x z = true → lt x y = true ∨ lt y z = true)
    (a i : Nat) : ∀ (h : Nat) (arr : Array α), a ≤ h → h ≤ i → i < arr.size →
    (∀ u v, a ≤ u → u < v → v ≤ i → u ≠ h → v ≠ h → altb lt arr v u = false) →
    (∀ v, h < v → v ≤ i → altb lt arr h v = true) →
    ∀ u v, a ≤ u → u < v → v ≤ i → altb lt (insertionInner lt a arr h) v u = false := by
  intro h
  induction h with
  | zero =>
    intro arr hah hhi hsz I1 I2 u v hau huv hvi
    rcases Nat.eq_zero_or_pos u with rfl | hu
    · exact altb_asymm lt hirr htr (I2 v huv hvi)
    · exact I1 u v hau huv hvi (by omega) (by omega)
  | succ j ih =>
    intro arr hah hhi hsz I1 I2 u v hau huv hvi
    rw [insertionInner]
    split
    · rename_i hc
      have haj : a ≤ j := hc.1
      have hlt : altb lt arr (j + 1) j = true := hc.2
      have hj1 : j + 1 < arr.size := by omega
      have hj : j < arr.size := by omega
      obtain ⟨x, hx⟩ := getElem?_total hj1
      obtain ⟨y, hy⟩ := getElem?_total hj
      have hxy : lt x y = true := by
        rw [altb_some lt hx hy] at hlt
        exact hlt
      have hswapsz : (aswap arr (j + 1) j).size = arr.size := aswap_size arr (j + 1) j
      have hs_left : (aswap arr (j + 1) j)[j + 1]? = some y := by
        rw [aswap_getElem?_left arr (j + 1) j hj1 hj]
        exact hy
      have hs_right : (aswap arr (j + 1) j)[j]? = some x := by
        rw [aswap_getElem?_right arr (j + 1) j hj1 hj]
        exact hx
      have hs_other : ∀ k, k ≠ j + 1 → k ≠ j → (aswap arr (j + 1) j)[k]? = arr[k]? :=
        fun k h1 h2 => aswap_getElem?_other arr (j + 1) j k h1 h2
      refine ih (aswap arr (j + 1) j) haj (by omega) (by omega) ?_ ?_ u v hau huv hvi
      · -- I1 for the new hole j
        intro u2 v2 hau2 huv2 hv2i hu2j hv2j
        rcases eq_or_ne u2 (j + 1) with rfl | hu2j1
        · -- pair (j+1, v2), value at j+1 is now y, old position j
          have hv2ne : v2 ≠ j + 1 := by omega
          have hold := I1 j v2 haj (by omega) hv2i (by omega) hv2ne
          rcases getElem?_total (show v2 < arr.size by omega) with ⟨z, hz⟩
          rw [altb_some lt hz hy] at hold
          rw [altb_some lt (by rw [hs_other v2 hv2ne hv2j]; exact hz) hs_left]
          exact hold
        · rcases eq_or_ne v2 (j + 1) with rfl | hv2j1
          · -- pair (u2, j+1), u2 < j
            have hold := I1 u2 j hau2 (by omega) (by omega) hu2j1 (by omega)
            rcases getElem?_total (show u2 < arr.size by omega) with ⟨w, hw⟩
            rw [altb_some lt hy hw] at hold
            rw [altb_some lt hs_left (by rw [hs_other u2 hu2j1 hu2j]; exact hw)]
            exact hold
          · have hold := I1 u2 v2 hau2 huv2 hv2i hu2j1 hv2j1
            rcases getElem?_total (show u2 < arr.size by omega) with ⟨w, hw⟩
            rcases getElem?_total (show v2 < arr.size by omega) with ⟨z, hz⟩
            rw [altb_some lt hz hw] at hold
            rw [altb_some lt (by rw [hs_other v2 hv2j1 hv2j]; exact hz)
              (by rw [hs_other u2 hu2j1 hu2j]; exact hw)]
            exact hold
      · -- I2 for the new hole j
        intro v2 hjv2 hv2i
        rcases eq_or_ne v2 (j + 1) with rfl | hv2j1
        · rw [altb_some lt hs_right hs_left]
          exact hxy
        · have hold := I2 v2 (by omega) hv2i
          rcases getElem?_total (show v2 < arr.size by omega) with ⟨z, hz⟩
          rw [altb_some lt hx hz] at hold
          rw [altb_some lt hs_right (by rw [hs_other v2 hv2j1 (by omega)]; exact hz)]
          exact hold
    · rename_i hc
      -- exit: either a > j (hole already at a) or the candidate is not
      -- below its predecessor
      rcases eq_or_ne v (j + 1) with rfl | hvj1
      · -- pair (u, hole)
        by_cases haj : a ≤ j
        · have hnlt : altb lt arr (j + 1) j = false := by
            cases hq : altb lt arr (j + 1) j with
            | false => rfl
            | true => exact absurd ⟨haj, hq⟩ hc
          rcases eq_or_ne u j with rfl | huj
          · exact hnlt
          · have hsort := I1 u j hau (by omega) (by omega) (by omega) (by omega)
            exact altb_le_trans lt hng (by omega) (by omega) hsort hnlt
        · omega
      · rcases eq_or_ne u (j + 1) with rfl | huj1
        · exact altb_asymm lt hirr htr (I2 v huv hvi)
        · exact I1 u v hau huv hvi huj1 hvj1

/-- Correctness of the insertion outer loop. -/
theorem insertionGo_sorted (hirr : ∀ x, lt x x = false)
    (htr : ∀ x y z, lt x y = true → lt y z = true → lt x z = true)
    (hng : ∀ x y z, lt x z = true → lt x y = true ∨ lt y z = true)
    (a : Nat) : ∀ (n i : Nat) (arr : Array α), a ≤ i → i + n ≤ arr.size →
    ISorted lt arr a i → ISorted lt (insertionGo lt a n i arr) a (i + n) := by
  intro n
  induction n with
  | zero =>
    intro i arr hai hsz hs
    exact hs
  | succ n ih =>
    intro i arr hai hsz hs
    rw [insertionGo]
    have hsorted1 : ISorted lt (insertionInner lt a arr i) a (i + 1) := by
      intro u v hau huv hvi
      refine insertionInner_sorted lt hirr htr hng a i i arr hai (Nat.le_refl i) (by omega)
        ?_ ?_ u v hau huv (by omega)
      · intro u2 v2 hau2 huv2 hv2i hu2i hv2i2
        exact hs u2 v2 hau2 huv2 (by omega)
      · intro v2 hv2 hv2i
        omega
    have hsz1 : (insertionInner lt a arr i).size = arr.size :=
      size_eq_of_toList_perm (insertionInner_perm lt a i arr)
    have hres := ih (i + 1) (insertionInner lt a arr i) (by omega) (by omega) hsorted1
    have harith : i + (n + 1) = (i + 1) + n := by omega
    rw [harith]
    exact hres

/-- insertionSort sorts its range. -/
theorem insertionSort_sorted (hirr : ∀ x, lt x x = false)
    (htr : ∀ x y z, lt x y = true → lt y z = true → lt x z = true)
    (hng : ∀ x y z, lt x z = true → lt x y = true ∨ lt y z = true)
    (arr : Array α) (a b : Nat) (hb : b ≤ arr.size) :
    ISorted lt (insertionSort lt arr a b) a b := by
  unfold insertionSort
  by_cases hab : b ≤ a + 1
  · have h0 : b - (a + 1) = 0 := by omega
    rw [h0]
    exact isorted_small lt hab
  · have hres := insertionGo_sorted lt hirr htr hng a (b - (a + 1)) (a + 1) arr (by omega)
      (by omega) (isorted_small lt (by omega))
    have harith : (a + 1) + (b - (a + 1)) = b := by omega
    rw [harith] at hres
    exact hres

/-! Heap sort. -/

/-- altb only depends on the values at the two positions. -/
theorem altb_congr {arr arr2 : Array α} {u v u2 v2 : Nat}
    (h1 : arr2[u2]? = arr[u]?) (h2 : arr2[v2]? = arr[v]?) :
    altb lt arr2 u2 v2 = altb lt arr u v := by
  unfold altb
  rw [h1, h2]

/-- altb never relates a position to itself. -/
theorem altb_self (hirr : ∀ x, lt x x = false) (arr : Array α) (u : Nat) :
    altb lt arr u u = false := by
  rcases hu : arr[u]? with _ | x
  · exact altb_none_left lt hu
  · rw [altb_some lt hu hu]
    exact hirr x

/-- The chosen child of siftDown is one of the two children, is inside the
window, and dominates both children. -/
theorem siftChild_spec (hirr : ∀ x, lt x x = false)
    (htr : ∀ x y z, lt x y = true → lt y z = true → lt x z = true)
    (arr : Array α) (hi first root : Nat) (hroot : 2 * root + 1 < hi) :
    (siftChild lt arr hi first root = 2 * root + 1 ∨ siftChild lt arr hi first root = 2 * root + 2)
    ∧ siftChild lt arr hi first root < hi
    ∧ ∀ s, (s = 2 * root + 1 ∨ s = 2 * root + 2) → s < hi →
        altb lt arr (first + siftChild lt arr hi first root) (first + s) = false := by
  by_cases hch : 2 * root + 1 + 1 < hi ∧ altb lt arr (first + (2 * root + 1)) (first + (2 * root + 1) + 1) = true
  · have hc : siftChild lt arr hi first root = 2 * root + 2 := by
      unfold siftChild
      rw [if_pos hch]
    rw [hc]
    refine ⟨Or.inr rfl, by omega, ?_⟩
    intro s hs hshi
    rcases hs with rfl | rfl
    · have := altb_asymm lt hirr htr hch.2
      have harith : first + (2 * root + 1) + 1 = first + (2 * root + 2) := by omega
      rw [harith] at this
      exact this
    · exact altb_self lt hirr arr _
  · have hc : siftChild lt arr hi first root = 2 * root + 1 := by
      unfold siftChild
      rw [if_neg hch]
    rw [hc]
    refine ⟨Or.inl rfl, by omega, ?_⟩
    intro s hs hshi
    rcases hs with rfl | rfl
    · exact altb_self lt hirr arr _
    · have hnb : altb lt arr (first + (2 * root + 1)) (first + (2 * root + 1) + 1) = false := by
        rcases Decidable.em (2 * root + 1 + 1 < hi) with h2 | h2
        · cases hq : altb lt arr (first + (2 * root + 1)) (first + (2 * root + 1) + 1) with
          | false => rfl
          | true => exact absurd ⟨h2, hq⟩ hch
        · omega
      have harith : first + (2 * root + 1) + 1 = first + (2 * root + 2) := by omega
      rw [harith] at hnb
      exact hnb

/-- siftDown does not touch positions below the root or at or beyond the
window end. -/
theorem siftDownGo_outside (hi first : Nat) : ∀ (fuel root : Nat) (arr : Array α) (k : Nat),
    k < first + root ∨ first + hi ≤ k →
    (siftDownGo lt hi first fuel root arr)[k]? = arr[k]? := by
  intro fuel
  induction fuel with
  | zero => intro root arr k hk; rfl
  | succ fuel ih =>
    intro root arr k hk
    rw [siftDownGo]
    dsimp only
    split
    · rfl
    · split
      · rfl
      · rename_i hroot hcond
        have hch : siftChild lt arr hi first root = 2 * root + 1 ∨
            siftChild lt arr hi first root = 2 * root + 2 := by
          unfold siftChild
          split
          · exact Or.inr rfl
          · exact Or.inl rfl
        have hchlt : siftChild lt arr hi first root < hi := by
          rcases hch with h | h
          · omega
          · -- the bumped child was guarded by 2*root+2 < hi
            rcases Decidable.em (2 * root + 1 + 1 < hi) with h2 | h2
            · omega
            · exfalso
              unfold siftChild at h
              rw [if_neg (by intro hand; exact h2 hand.1)] at h
              omega
        rw [ih (siftChild lt arr hi first root) _ k (by omega)]
        exact aswap_getElem?_other arr _ _ k (by omega) (by omega)

/-- Sift-down correctness: if the heap property holds at every parent at
or above root0 other than the current root, and the parent of the current
root, when distinct and itself at or above root0, dominates both children
of the current root, then after siftDownGo the heap property holds at
every parent at or above root0. -/
theorem siftDownGo_spec (hirr : ∀ x, lt x x = false)
    (htr : ∀ x y z, lt x y = true → lt y z = true → lt x z = true)
    (hng : ∀ x y z, lt x z = true → lt x y = true ∨ lt y z = true)
    (hi first root0 : Nat) :
    ∀ (fuel root : Nat) (arr : Array α),
    first + hi ≤ arr.size → root0 ≤ root → hi - root ≤ fuel →
    (∀ c, 1 ≤ c → c < hi → root0 ≤ (c - 1) / 2 → (c - 1) / 2 ≠ root →
      altb lt arr (first + (c - 1) / 2) (first + c) = false) →
    (root ≠ root0 → root0 ≤ (root - 1) / 2 →
      ∀ c, c < hi → (c = 2 * root + 1 ∨ c = 2 * root + 2) →
        altb lt arr (first + (root - 1) / 2) (first + c) = false) →
    ∀ c, 1 ≤ c → c < hi → root0 ≤ (c - 1) / 2 →
      altb lt (siftDownGo lt hi first fuel root arr) (first + (c - 1) / 2) (first + c) = false := by
  intro fuel
  induction fuel with
  | zero =>
    intro root arr hsz hr0 hfuel hA hB c hc1 hchi hc0
    exact hA c hc1 hchi hc0 (by omega)
  | succ fuel ih =>
    intro root arr hsz hr0 hfuel hA hB c hc1 hchi hc0
    rw [siftDownGo]
    dsimp only
    split
    · rename_i hnoch
      exact hA c hc1 hchi hc0 (by omega)
    · rename_i hroot
      obtain ⟨hch12, hchlt, hdom⟩ := siftChild_spec lt hirr htr arr hi first root (by omega)
      split
      · rename_i hexit
        by_cases hpar : (c - 1) / 2 = root
        · have hnot : altb lt arr (first + root) (first + siftChild lt arr hi first root) = false := by
            cases hq : altb lt arr (first + root) (first + siftChild lt arr hi first root) with
            | false => rfl
            | true => exact absurd hq hexit
          have hsib := hdom c (by omega) hchi
          rw [hpar]
          exact altb_le_trans lt hng (by omega) (by omega) hsib hnot
        · exact hA c hc1 hchi hc0 hpar
      · rename_i hexit
        have hlt : altb lt arr (first + root) (first + siftChild lt arr hi first root) = true :=
          not_not.mp hexit
        have hRlt : first + root < arr.size := by omega
        have hClt : first + siftChild lt arr hi first root < arr.size := by omega
        have hRC : first + root ≠ first + siftChild lt arr hi first root := by omega
        have hleft : (aswap arr (first + root) (first + siftChild lt arr hi first root))[first + root]? =
            arr[first + siftChild lt arr hi first root]? :=
          aswap_getElem?_left arr _ _ hRlt hClt
        have hright : (aswap arr (first + root) (first + siftChild lt arr hi first root))[first + siftChild lt arr hi first root]? =
            arr[first + root]? :=
          aswap_getElem?_right arr _ _ hRlt hClt
        have hother : ∀ k, k ≠ first + root → k ≠ first + siftChild lt arr hi first root →
            (aswap arr (first + root) (first + siftChild lt arr hi first root))[k]? = arr[k]? :=
          fun k h1 h2 => aswap_getElem?_other arr _ _ k h1 h2
        refine ih (siftChild lt arr hi first root)
          (aswap arr (first + root) (first + siftChild lt arr hi first root))
          (by rw [aswap_size]; exact hsz) (by omega) (by omega) ?_ ?_ c hc1 hchi hc0
        · -- heap property at parents other than the new root
          intro c2 hc21 hc2hi hc20 hc2ne
          by_cases hp2 : (c2 - 1) / 2 = root
          · by_cases hc2ch : c2 = siftChild lt arr hi first root
            · -- the swapped edge itself
              rw [hp2, hc2ch]
              rw [altb_congr lt hleft hright]
              exact altb_asymm lt hirr htr hlt
            · -- a sibling of the chosen child
              rw [hp2]
              rw [altb_congr lt hleft (hother (first + c2) (by omega) (by omega))]
              exact hdom c2 (by omega) hc2hi
          · by_cases hc2root : c2 = root
            · -- the edge from the parent of the old root down to it
              have hr1 : 1 ≤ root := by omega
              rw [hc2root]
              rw [altb_congr lt
                (hother (first + (root - 1) / 2) (by omega) (by omega)) hleft]
              refine hB (by omega) (by omega) (siftChild lt arr hi first root) (by omega) (by omega)
            · -- untouched edge
              rw [altb_congr lt
                (hother (first + (c2 - 1) / 2) (by omega) (by omega))
                (hother (first + c2) (by omega) (by omega))]
              exact hA c2 hc21 hc2hi hc20 hp2
        · -- dominance of the new parent over the grandchildren
          intro hchr0 hchp0 gc hgchi hgc
          have hpch : (siftChild lt arr hi first root - 1) / 2 = root := by omega
          rw [hpch]
          rw [altb_congr lt hleft (hother (first + gc) (by omega) (by omega))]
          have hgcp : (gc - 1) / 2 = siftChild lt arr hi first root := by omega
          rw [← hgcp]
          exact hA gc (by omega) hgchi (by omega) (by omega)

/-- Transfer of the cross-ordering property through a permutation of the
left block that fixes the right block pointwise. -/
theorem cross_transfer (arr1 arr2 : Array α) (a m b : Nat)
    (hperm : aslice arr2 a m ~ aslice arr1 a m)
    (hagree : ∀ j, m ≤ j → j < b → arr2[j]? = arr1[j]?)
    (hcross : ∀ i j, a ≤ i → i < m → m ≤ j → j < b → altb lt arr1 j i = false) :
    ∀ i j, a ≤ i → i < m → m ≤ j → j < b → altb lt arr2 j i = false := by
  have hP : ∀ k, a ≤ k → k < m → ∀ x, arr1[k]? = some x →
      ∀ j, m ≤ j → j < b → ∀ y, arr1[j]? = some y → lt y x = false := by
    intro k hak hkm x hx j hmj hjb y hy
    have h := hcross k j hak hkm hmj hjb
    rw [altb_some lt hy hx] at h
    exact h
  have htrans := range_prop_transfer arr1 arr2 a m
    (fun x => ∀ j, m ≤ j → j < b → ∀ y, arr1[j]? = some y → lt y x = false) hperm hP
  intro i j hai him hmj hjb
  rcases hx : arr2[i]? with _ | x
  · exact altb_none_right lt hx
  · rcases hy : arr2[j]? with _ | y
    · exact altb_none_left lt hy
    · rw [altb_some lt hy hx]
      rw [hagree j hmj hjb] at hy
      exact htrans i hai him x hx j hmj hjb y hy

/-- A pointwise-preserved range keeps a value property. -/
theorem region_value_congr (arr1 arr2 : Array α) (a b : Nat) (P : α → Prop)
    (hagree : ∀ k, a ≤ k → k < b → arr2[k]? = arr1[k]?)
    (h : ∀ k, a ≤ k → k < b → ∀ x, arr1[k]? = some x → P x) :
    ∀ k, a ≤ k → k < b → ∀ x, arr2[k]? = some x → P x := by
  intro k hak hkb x hx
  rw [hagree k hak hkb] at hx
  exact h k hak hkb x hx

/-- In a max-heap laid out on [first, first + hi) the root dominates every
element of the window. -/
theorem heap_root_max (hirr : ∀ x, lt x x = false)
    (hng : ∀ x y z, lt x z = true → lt x y = true ∨ lt y z = true)
    (arr : Array α) (hi first : Nat) (hsz : first + hi ≤ arr.size)
    (hheap : ∀ c, 1 ≤ c → c < hi → altb lt arr (first + (c - 1) / 2) (first + c) = false) :
    ∀ k, k < hi → altb lt arr first (first + k) = false := by
  intro k
  induction k using Nat.strong_induction_on with
  | _ k ih =>
    intro hk
    rcases Nat.eq_zero_or_pos k with rfl | hk1
    · have h := altb_self lt hirr arr first
      simpa using h
    · have hpar := hheap k hk1 hk
      have hup := ih ((k - 1) / 2) (by omega) (by omega)
      have hu : first + k < arr.size := by omega
      have hv : first + (k - 1) / 2 < arr.size := by omega
      exact altb_le_trans lt hng hu hv hpar hup

/-- The heapify loop touches only the window [first, first + hi). -/
theorem heapLoop1_outside (hi first : Nat) : ∀ (n : Nat) (arr : Array α) (k : Nat),
    k < first ∨ first + hi ≤ k → (heapLoop1 lt hi first n arr)[k]? = arr[k]? := by
  intro n
  induction n with
  | zero => intro arr k hk; rfl
  | succ n ih =>
    intro arr k hk
    rw [heapLoop1]
    rw [ih _ k hk]
    unfold siftDown
    exact siftDownGo_outside lt hi first (hi + 1) n arr k (by omega)

/-- The extraction loop touches only the window [first, first + n). -/
theorem heapLoop2_outside (first : Nat) : ∀ (n : Nat) (arr : Array α) (k : Nat),
    k < first ∨ first + n ≤ k → (heapLoop2 lt first n arr)[k]? = arr[k]? := by
  intro n
  induction n with
  | zero => intro arr k hk; rfl
  | succ n ih =>
    intro arr k hk
    rw [heapLoop2]
    rw [ih _ k (by omega)]
    unfold siftDown
    rw [siftDownGo_outside lt n first (n + 1) 0 _ k (by omega)]
    exact aswap_getElem?_other arr first (first + n) k (by omega) (by omega)

/-- After the heapify loop the whole window is a max-heap. -/
theorem heapLoop1_heap (hirr : ∀ x, lt x x = false)
    (htr : ∀ x y z, lt x y = true → lt y z = true → lt x z = true)
    (hng : ∀ x y z, lt x z = true → lt x y = true ∨ lt y z = true)
    (hi first : Nat) :
    ∀ (n : Nat) (arr : Array α), first + hi ≤ arr.size →
    (∀ c, 1 ≤ c → c < hi → n ≤ (c - 1) / 2 →
      altb lt arr (first + (c - 1) / 2) (first + c) = false) →
    ∀ c, 1 ≤ c → c < hi →
      altb lt (heapLoop1 lt hi first n arr) (first + (c - 1) / 2) (first + c) = false := by
  intro n
  induction n with
  | zero =>
    intro arr hsz hpre c hc1 hchi
    exact hpre c hc1 hchi (Nat.zero_le _)
  | succ n ih =>
    intro arr hsz hpre c hc1 hchi
    rw [heapLoop1]
    have hstep : ∀ c2, 1 ≤ c2 → c2 < hi → n ≤ (c2 - 1) / 2 →
        altb lt (siftDown lt arr n hi first) (first + (c2 - 1) / 2) (first + c2) = false := by
      intro c2 hc21 hc2hi hc2n
      unfold siftDown
      refine siftDownGo_spec lt hirr htr hng hi first n (hi + 1) n arr hsz (Nat.le_refl n)
        (by omega) ?_ ?_ c2 hc21 hc2hi hc2n
      · intro c3 hc31 hc3hi hc3n hc3ne
        exact hpre c3 hc31 hc3hi (by omega)
      · intro hne
        exact absurd rfl hne
    have hsz2 : (siftDown lt arr n hi first).size = arr.size :=
      size_eq_of_toList_perm (siftDown_perm lt arr n hi first)
    exact ih (siftDown lt arr n hi first) (by omega) hstep c hc1 hchi

/-- One step of the extraction loop: swapping the heap maximum to the end
of the window and sifting the new root down restores every invariant at
the shrunken window. -/
theorem heapLoop2_step (hirr : ∀ x, lt x x = false)
    (htr : ∀ x y z, lt x y = true → lt y z = true → lt x z = true)
    (hng : ∀ x y z, lt x z = true → lt x y = true ∨ lt y z = true)
    (first hi n : Nat) (arr : Array α)
    (hn : n + 1 ≤ hi) (hsz : first + hi ≤ arr.size)
    (hheap : ∀ c, 1 ≤ c → c < n + 1 → altb lt arr (first + (c - 1) / 2) (first + c) = false)
    (hsorted : ISorted lt arr (first + (n + 1)) (first + hi))
    (hcross : ∀ i j, first ≤ i → i < first + (n + 1) → first + (n + 1) ≤ j → j < first + hi →
      altb lt arr j i = false) :
    (siftDown lt (aswap arr first (first + n)) 0 n first).size = arr.size
    ∧ (∀ c, 1 ≤ c → c < n → altb lt (siftDown lt (aswap arr first (first + n)) 0 n first)
        (first + (c - 1) / 2) (first + c) = false)
    ∧ ISorted lt (siftDown lt (aswap arr first (first + n)) 0 n first) (first + n) (first + hi)
    ∧ (∀ i j, first ≤ i → i < first + n → first + n ≤ j → j < first + hi →
      altb lt (siftDown lt (aswap arr first (first + n)) 0 n first) j i = false) := by
  have hf : first < arr.size := by omega
  have hfn : first + n < arr.size := by omega
  have hSL : (aswap arr first (first + n))[first]? = arr[first + n]? :=
    aswap_getElem?_left arr first (first + n) hf hfn
  have hSR : (aswap arr first (first + n))[first + n]? = arr[first]? :=
    aswap_getElem?_right arr first (first + n) hf hfn
  have hSO : ∀ k, k ≠ first → k ≠ first + n → (aswap arr first (first + n))[k]? = arr[k]? :=
    fun k h1 h2 => aswap_getElem?_other arr first (first + n) k h1 h2
  have hSsz : (aswap arr first (first + n)).size = arr.size := aswap_size arr first (first + n)
  have hmax : ∀ k, k < n + 1 → altb lt arr first (first + k) = false :=
    heap_root_max lt hirr hng arr (n + 1) first (by omega) hheap
  have hS1 : ISorted lt (aswap arr first (first + n)) (first + n) (first + n + 1) :=
    isorted_small lt (Nat.le_refl _)
  have hS2 : ISorted lt (aswap arr first (first + n)) (first + n + 1) (first + hi) := by
    refine isorted_congr lt ?_ hsorted
    intro k hk1 hk2
    exact hSO k (by omega) (by omega)
  have hScross1 : ∀ j, first + n + 1 ≤ j → j < first + hi →
      altb lt (aswap arr first (first + n)) j (first + n) = false := by
    intro j h1 h2
    rw [altb_congr lt (hSO j (by omega) (by omega)) hSR]
    exact hcross first j (Nat.le_refl _) (by omega) (by omega) h2
  have hSsorted : ISorted lt (aswap arr first (first + n)) (first + n) (first + hi) := by
    refine isorted_of_blocks lt hS1 hS2 ?_
    intro i j h1 h2 h3 h4
    have hi' : i = first + n := by omega
    rw [hi']
    exact hScross1 j h3 h4
  have hScross : ∀ i j, first ≤ i → i < first + n → first + n ≤ j → j < first + hi →
      altb lt (aswap arr first (first + n)) j i = false := by
    intro i j h1 h2 h3 h4
    rcases eq_or_ne j (first + n) with heqj | hjn
    · rw [heqj]
      rcases eq_or_ne i first with heqi | hifr
      · rw [heqi]
        rw [altb_congr lt hSR hSL]
        exact hmax n (by omega)
      · rw [altb_congr lt hSR (hSO i hifr (by omega))]
        have h := hmax (i - first) (by omega)
        have harith : first + (i - first) = i := by omega
        rw [harith] at h
        exact h
    · rcases eq_or_ne i first with heqi | hifr
      · rw [heqi]
        rw [altb_congr lt (hSO j (by omega) hjn) hSL]
        exact hcross (first + n) j (by omega) (by omega) (by omega) h4
      · rw [altb_congr lt (hSO j (by omega) hjn) (hSO i hifr (by omega))]
        exact hcross i j h1 (by omega) (by omega) h4
  have hheap2 : ∀ c, 1 ≤ c → c < n →
      altb lt (siftDown lt (aswap arr first (first + n)) 0 n first)
        (first + (c - 1) / 2) (first + c) = false := by
    intro c hc1 hcn
    unfold siftDown
    refine siftDownGo_spec lt hirr htr hng n first 0 (n + 1) 0 (aswap arr first (first + n))
      (by omega) (Nat.zero_le _) (by omega) ?_ ?_ c hc1 hcn (Nat.zero_le _)
    · intro c2 hc21 hc2n hc20 hc2ne
      rw [altb_congr lt (hSO (first + (c2 - 1) / 2) (by omega) (by omega))
        (hSO (first + c2) (by omega) (by omega))]
      exact hheap c2 hc21 (by omega)
    · intro hne
      exact absurd rfl hne
  have hsz' : (siftDown lt (aswap arr first (first + n)) 0 n first).size = arr.size := by
    have h := size_eq_of_toList_perm (siftDown_perm lt (aswap arr first (first + n)) 0 n first)
    rw [h, hSsz]
  have hout' : ∀ k, k < first ∨ first + n ≤ k →
      (siftDown lt (aswap arr first (first + n)) 0 n first)[k]? =
        (aswap arr first (first + n))[k]? := by
    intro k hk
    unfold siftDown
    exact siftDownGo_outside lt n first (n + 1) 0 _ k (by omega)
  have hsorted' : ISorted lt (siftDown lt (aswap arr first (first + n)) 0 n first)
      (first + n) (first + hi) := by
    refine isorted_congr lt ?_ hSsorted
    intro k h1 h2
    exact hout' k (Or.inr h1)
  have hcross' : ∀ i j, first ≤ i → i < first + n → first + n ≤ j → j < first + hi →
      altb lt (siftDown lt (aswap arr first (first + n)) 0 n first) j i = false := by
    refine cross_transfer lt (aswap arr first (first + n)) _ first (first + n) (first + hi)
      ?_ ?_ hScross
    · refine aslice_perm_of_outside _ _ first (first + n)
        (siftDown_perm lt _ 0 n first) ?_
      intro k hk
      exact hout' k hk
    · intro j h1 h2
      exact hout' j (Or.inr h1)
  exact ⟨hsz', hheap2, hsorted', hcross'⟩

/-- The extraction loop turns a max-heap into a sorted window, preserving
the already-sorted suffix and the window-suffix separation. -/
theorem heapLoop2_sorted (hirr : ∀ x, lt x x = false)
    (htr : ∀ x y z, lt x y = true → lt y z = true → lt x z = true)
    (hng : ∀ x y z, lt x z = true → lt x y = true ∨ lt y z = true)
    (first hi : Nat) :
    ∀ (n : Nat) (arr : Array α), n ≤ hi → first + hi ≤ arr.size →
    (∀ c, 1 ≤ c → c < n → altb lt arr (first + (c - 1) / 2) (first + c) = false) →
    ISorted lt arr (first + n) (first + hi) →
    (∀ i j, first ≤ i → i < first + n → first + n ≤ j → j < first + hi →
      altb lt arr j i = false) →
    ISorted lt (heapLoop2 lt first n arr) first (first + hi) := by
  intro n
  induction n with
  | zero =>
    intro arr hn hsz hheap hsorted hcross
    have h : ISorted lt arr first (first + hi) := by simpa using hsorted
    exact h
  | succ n ih =>
    intro arr hn hsz hheap hsorted hcross
    rw [heapLoop2]
    obtain ⟨hsz', hheap', hsorted', hcross'⟩ :=
      heapLoop2_step lt hirr htr hng first hi n arr hn hsz hheap hsorted hcross
    exact ih (siftDown lt (aswap arr first (first + n)) 0 n first) (by omega) (by omega)
      hheap' hsorted' hcross'

/-- heapSort does not touch positions outside [a, b). -/
theorem heapSort_outside (arr : Array α) (a b k : Nat) (hk : k < a ∨ b ≤ k) :
    (heapSort lt arr a b)[k]? = arr[k]? := by
  unfold heapSort
  dsimp only
  rw [heapLoop2_outside lt a (b - a) _ k (by omega)]
  exact heapLoop1_outside lt (b - a) a ((b - a - 1) / 2 + 1) arr k (by omega)

/-- heapSort sorts its range. -/
theorem heapSort_sorted (hirr : ∀ x, lt x x = false)
    (htr : ∀ x y z, lt x y = true → lt y z = true → lt x z = true)
    (hng : ∀ x y z, lt x z = true → lt x y = true ∨ lt y z = true)
    (arr : Array α) (a b : Nat) (hab : a ≤ b) (hb : b ≤ arr.size) :
    ISorted lt (heapSort lt arr a b) a b := by
  unfold heapSort
  dsimp only
  have hpre : ∀ c, 1 ≤ c → c < b - a → (b - a - 1) / 2 + 1 ≤ (c - 1) / 2 →
      altb lt arr (a + (c - 1) / 2) (a + c) = false := by
    intro c hc1 hc2 hc3
    exact absurd hc3 (by omega)
  have hheap1 := heapLoop1_heap lt hirr htr hng (b - a) a ((b - a - 1) / 2 + 1) arr
    (by omega) hpre
  have hsz1 : (heapLoop1 lt (b - a) a ((b - a - 1) / 2 + 1) arr).size = arr.size :=
    size_eq_of_toList_perm (heapLoop1_perm lt (b - a) a ((b - a - 1) / 2 + 1) arr)
  have hcross0 : ∀ i j, a ≤ i → i < a + (b - a) → a + (b - a) ≤ j → j < a + (b - a) →
      altb lt (heapLoop1 lt (b - a) a ((b - a - 1) / 2 + 1) arr) j i = false := by
    intro i j h1 h2 h3 h4
    exact absurd h4 (by omega)
  have hres := heapLoop2_sorted lt hirr htr hng a (b - a) (b - a)
    (heapLoop1 lt (b - a) a ((b - a - 1) / 2 + 1) arr) (Nat.le_refl _) (by omega) hheap1
    (isorted_small lt (by omega)) hcross0
  have harith : a + (b - a) = b := by omega
  rw [harith] at hres
  exact hres

/-! doPivot: pivot selection and the three-way partition. -/

/-- A true comparison bounds both of its positions. -/
theorem altb_true_bounds {arr : Array α} {u v : Nat} (h : altb lt arr u v = true) :
    u < arr.size ∧ v < arr.size := by
  rcases hu : arr[u]? with _ | x
  · rw [altb_none_left lt hu] at h
    cases h
  · rcases hv : arr[v]? with _ | y
    · rw [altb_none_right lt hv] at h
      cases h
    · exact ⟨getElem?_some_bound hu, getElem?_some_bound hv⟩

/-- After condSwap the compared pair is in order. -/
theorem condSwap_spec (hirr : ∀ x, lt x x = false)
    (htr : ∀ x y z, lt x y = true → lt y z = true → lt x z = true)
    (arr : Array α) (i j : Nat) (_hij : i ≠ j) :
    altb lt (condSwap lt arr i j) i j = false := by
  unfold condSwap
  split
  · rename_i hlt
    obtain ⟨his, hjs⟩ := altb_true_bounds lt hlt
    rw [altb_congr lt (aswap_getElem?_left arr i j his hjs)
      (aswap_getElem?_right arr i j his hjs)]
    exact altb_asymm lt hirr htr hlt
  · rename_i hlt
    simp only [Bool.not_eq_true] at hlt
    exact hlt

/-- condSwap does not touch other positions. -/
theorem condSwap_outside (arr : Array α) (i j k : Nat) (h1 : k ≠ i) (h2 : k ≠ j) :
    (condSwap lt arr i j)[k]? = arr[k]? := by
  unfold condSwap
  split
  · exact aswap_getElem?_other arr i j k h1 h2
  · rfl

/-- A third position stays in order with the compared pair across a
condSwap when it dominates both of them. -/
theorem condSwap_keep (arr : Array α) (i j k : Nat) (hki : k ≠ i) (hkj : k ≠ j)
    (h1 : altb lt arr k i = false) (h2 : altb lt arr k j = false) :
    altb lt (condSwap lt arr i j) k i = false := by
  unfold condSwap
  split
  · rename_i hlt
    obtain ⟨his, hjs⟩ := altb_true_bounds lt hlt
    rw [altb_congr lt (aswap_getElem?_other arr i j k hki hkj)
      (aswap_getElem?_left arr i j his hjs)]
    exact h2
  · exact h1

/-- medianOfThree leaves data[m2] at least data[m1]; instantiated at
(lo, m, hi-1) this is the `data[hi-1] >= pivot` entry invariant of the
doPivot scan. -/
theorem medianOfThree_spec (hirr : ∀ x, lt x x = false)
    (htr : ∀ x y z, lt x y = true → lt y z = true → lt x z = true)
    (arr : Array α) (m1 m0 m2 : Nat)
    (h10 : m1 ≠ m0) (h21 : m2 ≠ m1) (h20 : m2 ≠ m0) :
    altb lt (medianOfThree lt arr m1 m0 m2) m2 m1 = false := by
  have hP1 : altb lt (condSwap lt arr m1 m0) m1 m0 = false :=
    condSwap_spec lt hirr htr arr m1 m0 h10
  unfold medianOfThree
  dsimp only
  split
  · rename_i hlt
    obtain ⟨h2s, h1s⟩ := altb_true_bounds lt hlt
    have hswap : altb lt (aswap (condSwap lt arr m1 m0) m2 m1) m2 m1 = false := by
      rw [altb_congr lt (aswap_getElem?_left _ m2 m1 h2s h1s)
        (aswap_getElem?_right _ m2 m1 h2s h1s)]
      exact altb_asymm lt hirr htr hlt
    have hkeep2 : altb lt (aswap (condSwap lt arr m1 m0) m2 m1) m2 m0 = false := by
      rw [altb_congr lt (aswap_getElem?_left _ m2 m1 h2s h1s)
        (aswap_getElem?_other _ m2 m1 m0 (Ne.symm h20) (Ne.symm h10))]
      exact hP1
    exact condSwap_keep lt (aswap (condSwap lt arr m1 m0) m2 m1) m1 m0 m2 h21 h20 hswap hkeep2
  · rename_i hlt
    simp only [Bool.not_eq_true] at hlt
    exact hlt

/-- medianOfThree does not touch other positions. -/
theorem medianOfThree_outside (arr : Array α) (m1 m0 m2 k : Nat)
    (h1 : k ≠ m1) (h0 : k ≠ m0) (h2 : k ≠ m2) :
    (medianOfThree lt arr m1 m0 m2)[k]? = arr[k]? := by
  unfold medianOfThree
  dsimp only
  split
  · rw [condSwap_outside lt _ m1 m0 k h1 h0,
      aswap_getElem?_other _ m2 m1 k h2 h1,
      condSwap_outside lt arr m1 m0 k h1 h0]
  · exact condSwap_outside lt arr m1 m0 k h1 h0

/-- Pivot selection does not touch positions outside [lo, hi). -/
theorem doPivotInit_outside (arr0 : Array α) (lo hi k : Nat)
    (hlohi : lo < hi) (hk : k < lo ∨ hi ≤ k) :
    (doPivotInit lt arr0 lo hi)[k]? = arr0[k]? := by
  unfold doPivotInit
  dsimp only
  rw [medianOfThree_outside lt _ lo ((lo + hi) / 2) (hi - 1) k
    (by omega) (by omega) (by omega)]
  split
  · rename_i h40
    rw [medianOfThree_outside lt _ (hi - 1) (hi - 1 - (hi - lo) / 8)
      (hi - 1 - 2 * ((hi - lo) / 8)) k (by omega) (by omega) (by omega)]
    rw [medianOfThree_outside lt _ ((lo + hi) / 2) ((lo + hi) / 2 - (hi - lo) / 8)
      ((lo + hi) / 2 + (hi - lo) / 8) k (by omega) (by omega) (by omega)]
    exact medianOfThree_outside lt arr0 lo (lo + (hi - lo) / 8)
      (lo + 2 * ((hi - lo) / 8)) k (by omega) (by omega) (by omega)
  · rfl

/-- Specification of the initial scan `for ; a < c && Less(a, pivot); a++`:
the result is between a and c, everything passed over is strictly below
the pivot, and the scan only stops early at a non-below element. -/
theorem advanceA_spec (arr : Array α) (pivot c : Nat) : ∀ (fuel a : Nat), c - a ≤ fuel →
    a ≤ advanceA lt arr pivot c fuel a
    ∧ (a ≤ c → advanceA lt arr pivot c fuel a ≤ c)
    ∧ (∀ k, a ≤ k → k < advanceA lt arr pivot c fuel a → altb lt arr k pivot = true)
    ∧ (advanceA lt arr pivot c fuel a < c →
        altb lt arr (advanceA lt arr pivot c fuel a) pivot = false) := by
  intro fuel
  induction fuel with
  | zero =>
    intro a hfuel
    have hred : advanceA lt arr pivot c 0 a = a := rfl
    rw [hred]
    refine ⟨Nat.le_refl _, fun h => h, ?_, ?_⟩
    · intro k h1 h2
      exact absurd h2 (by omega)
    · intro h
      exact absurd h (by omega)
  | succ fuel ih =>
    intro a hfuel
    rw [advanceA]
    split
    · rename_i hcond
      obtain ⟨ih1, ih2, ih3, ih4⟩ := ih (a + 1) (by omega)
      refine ⟨by omega, fun h => ih2 (by omega), ?_, ih4⟩
      intro k h1 h2
      rcases eq_or_ne k a with heq | hne
      · rw [heq]
        exact hcond.2
      · exact ih3 k (by omega) h2
    · rename_i hcond
      refine ⟨Nat.le_refl _, fun h => h, ?_, ?_⟩
      · intro k h1 h2
        exact absurd h2 (by omega)
      · intro hlt
        rcases Decidable.em (altb lt arr a pivot = true) with htrue | hfalse
        · exact absurd ⟨hlt, htrue⟩ hcond
        · simp only [Bool.not_eq_true] at hfalse
          exact hfalse

/-- Specification of `for ; b < c && !Less(pivot, b); b++`. -/
theorem advanceB_spec (arr : Array α) (pivot c : Nat) : ∀ (fuel b : Nat), c - b ≤ fuel →
    b ≤ advanceB lt arr pivot c fuel b
    ∧ (b ≤ c → advanceB lt arr pivot c fuel b ≤ c)
    ∧ (∀ k, b ≤ k → k < advanceB lt arr pivot c fuel b → altb lt arr pivot k = false)
    ∧ (advanceB lt arr pivot c fuel b < c →
        altb lt arr pivot (advanceB lt arr pivot c fuel b) = true) := by
  intro fuel
  induction fuel with
  | zero =>
    intro b hfuel
    have hred : advanceB lt arr pivot c 0 b = b := rfl
    rw [hred]
    refine ⟨Nat.le_refl _, fun h => h, ?_, ?_⟩
    · intro k h1 h2
      exact absurd h2 (by omega)
    · intro h
      exact absurd h (by omega)
  | succ fuel ih =>
    intro b hfuel
    rw [advanceB]
    split
    · rename_i hcond
      obtain ⟨ih1, ih2, ih3, ih4⟩ := ih (b + 1) (by omega)
      refine ⟨by omega, fun h => ih2 (by omega), ?_, ih4⟩
      intro k h1 h2
      rcases eq_or_ne k b with heq | hne
      · rw [heq]
        simpa using hcond.2
      · exact ih3 k (by omega) h2
    · rename_i hcond
      refine ⟨Nat.le_refl _, fun h => h, ?_, ?_⟩
      · intro k h1 h2
        exact absurd h2 (by omega)
      · intro hlt
        rcases Decidable.em (altb lt arr pivot b = true) with htrue | hfalse
        · exact htrue
        · exact absurd ⟨hlt, hfalse⟩ hcond

/-- Specification of `for ; b < c && Less(pivot, c-1); c--`. -/
theorem advanceC_spec (arr : Array α) (pivot b : Nat) : ∀ (fuel c : Nat), c - b ≤ fuel →
    advanceC lt arr pivot b fuel c ≤ c
    ∧ (b ≤ c → b ≤ advanceC lt arr pivot b fuel c)
    ∧ (∀ k, advanceC lt arr pivot b fuel c ≤ k → k < c → altb lt arr pivot k = true)
    ∧ (b < advanceC lt arr pivot b fuel c →
        altb lt arr pivot (advanceC lt arr pivot b fuel c - 1) = false) := by
  intro fuel
  induction fuel with
  | zero =>
    intro c hfuel
    have hred : advanceC lt arr pivot b 0 c = c := rfl
    rw [hred]
    refine ⟨Nat.le_refl _, fun h => h, ?_, ?_⟩
    · intro k h1 h2
      exact absurd h2 (by omega)
    · intro h
      exact absurd h (by omega)
  | succ fuel ih =>
    intro c hfuel
    rw [advanceC]
    split
    · rename_i hcond
      obtain ⟨ih1, ih2, ih3, ih4⟩ := ih (c - 1) (by omega)
      refine ⟨by omega, fun h => ih2 (by omega), ?_, ih4⟩
      intro k h1 h2
      rcases eq_or_ne k (c - 1) with heq | hne
      · rw [heq]
        exact hcond.2
      · exact ih3 k h1 (by omega)
    · rename_i hcond
      refine ⟨Nat.le_refl _, fun h => h, ?_, ?_⟩
      · intro k h1 h2
        exact absurd h2 (by omega)
      · intro hlt
        rcases Decidable.em (altb lt arr pivot (c - 1) = true) with htrue | hfalse
        · exact absurd ⟨hlt, htrue⟩ hcond
        · simp only [Bool.not_eq_true] at hfalse
          exact hfalse

/-- Specification of `for ; a < b && !Less(b-1, pivot); b--`. -/
theorem retreatB_spec (arr : Array α) (pivot a : Nat) : ∀ (fuel b : Nat), b - a ≤ fuel →
    retreatB lt arr pivot a fuel b ≤ b
    ∧ min a b ≤ retreatB lt arr pivot a fuel b
    ∧ (∀ k, retreatB lt arr pivot a fuel b ≤ k → k < b → altb lt arr k pivot = false)
    ∧ (a < retreatB lt arr pivot a fuel b →
        altb lt arr (retreatB lt arr pivot a fuel b - 1) pivot = true) := by
  intro fuel
  induction fuel with
  | zero =>
    intro b hfuel
    have hred : retreatB lt arr pivot a 0 b = b := rfl
    rw [hred]
    refine ⟨Nat.le_refl _, by omega, ?_, ?_⟩
    · intro k h1 h2
      exact absurd h2 (by omega)
    · intro h
      exact absurd h (by omega)
  | succ fuel ih =>
    intro b hfuel
    rw [retreatB]
    split
    · rename_i hcond
      obtain ⟨ih1, ih2, ih3, ih4⟩ := ih (b - 1) (by omega)
      refine ⟨by omega, by omega, ?_, ih4⟩
      intro k h1 h2
      rcases eq_or_ne k (b - 1) with heq | hne
      · rw [heq]
        simpa using hcond.2
      · exact ih3 k h1 (by omega)
    · rename_i hcond
      refine ⟨Nat.le_refl _, by omega, ?_, ?_⟩
      · intro k h1 h2
        exact absurd h2 (by omega)
      · intro hlt
        rcases Decidable.em (altb lt arr (b - 1) pivot = true) with htrue | hfalse
        · exact htrue
        · exact absurd ⟨hlt, hfalse⟩ hcond

/-- Invariant of the doPivot partition loop: on exit b = c, everything
newly scanned on the left of b is at most the pivot, everything newly
scanned from c up is above the pivot, and nothing outside [b, c) moves. -/
theorem partitionLoop_spec (pivot hi : Nat) : ∀ (fuel b c : Nat) (arr : Array α),
    hi ≤ arr.size → pivot < b → b ≤ c → c ≤ hi - 1 → c - b + 1 ≤ fuel →
    (partitionLoop lt pivot hi fuel b c arr).1 = (partitionLoop lt pivot hi fuel b c arr).2.1
    ∧ b ≤ (partitionLoop lt pivot hi fuel b c arr).1
    ∧ (partitionLoop lt pivot hi fuel b c arr).1 ≤ c
    ∧ (∀ k, k < b ∨ c ≤ k → (partitionLoop lt pivot hi fuel b c arr).2.2[k]? = arr[k]?)
    ∧ (∀ k, b ≤ k → k < (partitionLoop lt pivot hi fuel b c arr).1 →
        altb lt (partitionLoop lt pivot hi fuel b c arr).2.2 pivot k = false)
    ∧ (∀ k, (partitionLoop lt pivot hi fuel b c arr).1 ≤ k → k < c →
        altb lt (partitionLoop lt pivot hi fuel b c arr).2.2 pivot k = true) := by
  intro fuel
  induction fuel with
  | zero =>
    intro b c arr hsz hpb hbc hc hfuel
    exact absurd hfuel (by omega)
  | succ fuel ih =>
    intro b c arr hsz hpb hbc hc hfuel
    rw [partitionLoop]
    generalize hb1def : advanceB lt arr pivot c hi b = b1
    generalize hc1def : advanceC lt arr pivot b1 hi c = c1
    obtain ⟨hB1, hB2, hB3, hB4⟩ := advanceB_spec lt arr pivot c hi b (by omega)
    rw [hb1def] at hB1 hB2 hB3 hB4
    obtain ⟨hC1, hC2, hC3, hC4⟩ := advanceC_spec lt arr pivot b1 hi c (by omega)
    rw [hc1def] at hC1 hC2 hC3 hC4
    have hb1c : b1 ≤ c := hB2 hbc
    have hb1c1 : b1 ≤ c1 := hC2 hb1c
    split
    · rename_i hge
      dsimp only
      refine ⟨by omega, hB1, hb1c, fun k _ => rfl, ?_, ?_⟩
      · intro k h1 h2
        exact hB3 k h1 h2
      · intro k h1 h2
        exact hC3 k (by omega) h2
    · rename_i hlt'
      have hb1ltc1 : b1 < c1 := by omega
      have hbT : altb lt arr pivot b1 = true := hB4 (by omega)
      have hcF : altb lt arr pivot (c1 - 1) = false := hC4 hb1ltc1
      have hne : b1 < c1 - 1 := by
        rcases Nat.lt_or_ge b1 (c1 - 1) with h | h
        · exact h
        · exfalso
          have heq : c1 - 1 = b1 := by omega
          rw [heq] at hcF
          simp [hbT] at hcF
      have hb1s : b1 < arr.size := by omega
      have hc1s : c1 - 1 < arr.size := by omega
      have hLEb1 : altb lt (aswap arr b1 (c1 - 1)) pivot b1 = false := by
        rw [altb_congr lt (aswap_getElem?_other arr b1 (c1 - 1) pivot (by omega) (by omega))
          (aswap_getElem?_left arr b1 (c1 - 1) hb1s hc1s)]
        exact hcF
      have hGTc1 : altb lt (aswap arr b1 (c1 - 1)) pivot (c1 - 1) = true := by
        rw [altb_congr lt (aswap_getElem?_other arr b1 (c1 - 1) pivot (by omega) (by omega))
          (aswap_getElem?_right arr b1 (c1 - 1) hb1s hc1s)]
        exact hbT
      obtain ⟨r1, r2, r3, r4, r5, r6⟩ := ih (b1 + 1) (c1 - 1) (aswap arr b1 (c1 - 1))
        (by rw [aswap_size]; exact hsz) (by omega) (by omega) (by omega) (by omega)
      refine ⟨r1, by omega, by omega, ?_, ?_, ?_⟩
      · intro k hk
        rw [r4 k (by omega)]
        exact aswap_getElem?_other arr b1 (c1 - 1) k (by omega) (by omega)
      · intro k h1 h2
        rcases Nat.lt_or_ge k (b1 + 1) with hk | hk
        · rw [altb_congr lt (r4 pivot (Or.inl (by omega))) (r4 k (Or.inl hk))]
          rcases eq_or_ne k b1 with heq | hne2
          · rw [heq]
            exact hLEb1
          · rw [altb_congr lt
              (aswap_getElem?_other arr b1 (c1 - 1) pivot (by omega) (by omega))
              (aswap_getElem?_other arr b1 (c1 - 1) k (Ne.symm (by omega)) (by omega))]
            exact hB3 k h1 (by omega)
        · exact r5 k hk h2
      · intro k h1 h2
        rcases Nat.lt_or_ge k (c1 - 1) with hk | hk
        · exact r6 k h1 hk
        · rcases eq_or_ne k (c1 - 1) with heq | hne2
          · rw [altb_congr lt (r4 pivot (Or.inl (by omega))) (r4 k (Or.inr (by omega)))]
            rw [heq]
            exact hGTc1
          · rw [altb_congr lt (r4 pivot (Or.inl (by omega))) (r4 k (Or.inr (by omega)))]
            rw [altb_congr lt
              (aswap_getElem?_other arr b1 (c1 - 1) pivot (by omega) (by omega))
              (aswap_getElem?_other arr b1 (c1 - 1) k (by omega) hne2)]
            exact hC3 k (by omega) h2

/-- Invariant of the protect phase of doPivot: everything on [lo+1, b)
stays at most the pivot, the tail [result, b) becomes pivot-equal, and
nothing outside [a, b) moves. -/
theorem protectLoop_spec (lo : Nat) : ∀ (fuel a b : Nat) (arr : Array α),
    b ≤ arr.size → lo < a → lo + 1 ≤ b → b - a + 1 ≤ fuel →
    (∀ k, lo + 1 ≤ k → k < b → altb lt arr lo k = false) →
    lo + 1 ≤ (protectLoop lt lo fuel a b arr).2.1
    ∧ (protectLoop lt lo fuel a b arr).2.1 ≤ b
    ∧ (∀ k, k < a ∨ b ≤ k → (protectLoop lt lo fuel a b arr).2.2[k]? = arr[k]?)
    ∧ (∀ k, lo + 1 ≤ k → k < (protectLoop lt lo fuel a b arr).2.1 →
        altb lt (protectLoop lt lo fuel a b arr).2.2 lo k = false)
    ∧ (∀ k, (protectLoop lt lo fuel a b arr).2.1 ≤ k → k < b →
        altb lt (protectLoop lt lo fuel a b arr).2.2 lo k = false
        ∧ altb lt (protectLoop lt lo fuel a b arr).2.2 k lo = false) := by
  intro fuel
  induction fuel with
  | zero =>
    intro a b arr hsz hla hlb hfuel hI1
    exact absurd hfuel (by omega)
  | succ fuel ih =>
    intro a b arr hsz hla hlb hfuel hI1
    rw [protectLoop]
    generalize hb1def : retreatB lt arr lo a b b = b1
    generalize ha1def : advanceA lt arr lo b1 b1 a = a1
    obtain ⟨hR1, hR2, hR3, hR4⟩ := retreatB_spec lt arr lo a b b (by omega)
    rw [hb1def] at hR1 hR2 hR3 hR4
    obtain ⟨hA1, hA2, hA3, hA4⟩ := advanceA_spec lt arr lo b1 b1 a (by omega)
    rw [ha1def] at hA1 hA2 hA3 hA4
    split
    · rename_i hge
      dsimp only
      refine ⟨by omega, hR1, fun k _ => rfl, ?_, ?_⟩
      · intro k h1 h2
        exact hI1 k h1 (by omega)
      · intro k h1 h2
        exact ⟨hI1 k (by omega) h2, hR3 k h1 h2⟩
    · rename_i hlt'
      have ha1b1 : a1 < b1 := by omega
      have hab1 : a < b1 := by omega
      have hbF : altb lt arr (b1 - 1) lo = true := hR4 hab1
      have haF : altb lt arr a1 lo = false := hA4 ha1b1
      have hne : a1 < b1 - 1 := by
        rcases Nat.lt_or_ge a1 (b1 - 1) with h | h
        · exact h
        · exfalso
          have heq : a1 = b1 - 1 := by omega
          rw [heq] at haF
          simp [haF] at hbF
      have hb1lo : lo + 1 < b1 := by omega
      have ha1s : a1 < arr.size := by omega
      have hb1s : b1 - 1 < arr.size := by omega
      have hI1' : ∀ k, lo + 1 ≤ k → k < b1 - 1 →
          altb lt (aswap arr a1 (b1 - 1)) lo k = false := by
        intro k h1 h2
        rcases eq_or_ne k a1 with heq | hne2
        · rw [heq]
          rw [altb_congr lt (aswap_getElem?_other arr a1 (b1 - 1) lo (by omega) (by omega))
            (aswap_getElem?_left arr a1 (b1 - 1) ha1s hb1s)]
          exact hI1 (b1 - 1) (by omega) (by omega)
        · rw [altb_congr lt (aswap_getElem?_other arr a1 (b1 - 1) lo (by omega) (by omega))
            (aswap_getElem?_other arr a1 (b1 - 1) k hne2 (by omega))]
          exact hI1 k h1 (by omega)
      obtain ⟨r1, r2, r3, r4, r5⟩ := ih (a1 + 1) (b1 - 1) (aswap arr a1 (b1 - 1))
        (by rw [aswap_size]; omega) (by omega) (by omega) (by omega) hI1'
      have hmidswap : altb lt (aswap arr a1 (b1 - 1)) lo (b1 - 1) = false
          ∧ altb lt (aswap arr a1 (b1 - 1)) (b1 - 1) lo = false := by
        constructor
        · rw [altb_congr lt (aswap_getElem?_other arr a1 (b1 - 1) lo (by omega) (by omega))
            (aswap_getElem?_right arr a1 (b1 - 1) ha1s hb1s)]
          exact hI1 a1 (by omega) (by omega)
        · rw [altb_congr lt (aswap_getElem?_right arr a1 (b1 - 1) ha1s hb1s)
            (aswap_getElem?_other arr a1 (b1 - 1) lo (by omega) (by omega))]
          exact haF
      refine ⟨r1, by omega, ?_, r4, ?_⟩
      · intro k hk
        rw [r3 k (by omega)]
        exact aswap_getElem?_other arr a1 (b1 - 1) k (by omega) (by omega)
      · intro k h1 h2
        rcases Nat.lt_or_ge k (b1 - 1) with hk | hk
        · exact r5 k h1 hk
        · have hklo : (protectLoop lt lo fuel (a1 + 1) (b1 - 1) (aswap arr a1 (b1 - 1))).2.2[lo]? =
              (aswap arr a1 (b1 - 1))[lo]? := r3 lo (Or.inl (by omega))
          have hkk : (protectLoop lt lo fuel (a1 + 1) (b1 - 1) (aswap arr a1 (b1 - 1))).2.2[k]? =
              (aswap arr a1 (b1 - 1))[k]? := r3 k (Or.inr hk)
          rcases eq_or_ne k (b1 - 1) with heq | hne2
          · rw [heq]
            rw [heq] at hkk
            constructor
            · rw [altb_congr lt hklo hkk]
              exact hmidswap.1
            · rw [altb_congr lt hkk hklo]
              exact hmidswap.2
          · have hsw : (aswap arr a1 (b1 - 1))[k]? = arr[k]? :=
              aswap_getElem?_other arr a1 (b1 - 1) k (by omega) hne2
            have hswlo : (aswap arr a1 (b1 - 1))[lo]? = arr[lo]? :=
              aswap_getElem?_other arr a1 (b1 - 1) lo (by omega) (by omega)
            constructor
            · rw [altb_congr lt hklo hkk, altb_congr lt hswlo hsw]
              exact hI1 k (by omega) h2
            · rw [altb_congr lt hkk hklo, altb_congr lt hsw hswlo]
              exact hR3 k (by omega) h2

/-- The last conditional of the duplicate-detection block: testing data[m]
against the pivot and, on equality, swapping it to the foot of the
pivot-equal run. -/
theorem dupsTail_spec (arr1 : Array α) (lo m b2 c1 hi k2 : Nat)
    (hsz : hi ≤ arr1.size) (hlom : lo + 1 ≤ m) (hmb : m < b2 - 1) (hlob : lo + 2 ≤ b2)
    (hb2c : b2 ≤ c1) (hc1hi : c1 ≤ hi)
    (hL1 : ∀ k, lo + 1 ≤ k → k < b2 → altb lt arr1 lo k = false)
    (hM1 : ∀ k, b2 ≤ k → k < c1 → altb lt arr1 lo k = false ∧ altb lt arr1 k lo = false)
    (hG1 : ∀ k, c1 ≤ k → k < hi → altb lt arr1 k lo = false) :
    b2 - 1 ≤ (if ¬ altb lt arr1 m lo = true
        then (b2 - 1, aswap arr1 (b2 - 1) m, k2 + 1) else (b2, arr1, k2)).1
    ∧ (if ¬ altb lt arr1 m lo = true
        then (b2 - 1, aswap arr1 (b2 - 1) m, k2 + 1) else (b2, arr1, k2)).1 ≤ b2
    ∧ (∀ k, k ≤ lo ∨ hi ≤ k → (if ¬ altb lt arr1 m lo = true
        then (b2 - 1, aswap arr1 (b2 - 1) m, k2 + 1) else (b2, arr1, k2)).2.1[k]? = arr1[k]?)
    ∧ (∀ k, lo + 1 ≤ k → k < (if ¬ altb lt arr1 m lo = true
        then (b2 - 1, aswap arr1 (b2 - 1) m, k2 + 1) else (b2, arr1, k2)).1 →
        altb lt (if ¬ altb lt arr1 m lo = true
          then (b2 - 1, aswap arr1 (b2 - 1) m, k2 + 1) else (b2, arr1, k2)).2.1 lo k = false)
    ∧ (∀ k, (if ¬ altb lt arr1 m lo = true
        then (b2 - 1, aswap arr1 (b2 - 1) m, k2 + 1) else (b2, arr1, k2)).1 ≤ k → k < c1 →
        altb lt (if ¬ altb lt arr1 m lo = true
          then (b2 - 1, aswap arr1 (b2 - 1) m, k2 + 1) else (b2, arr1, k2)).2.1 lo k = false
        ∧ altb lt (if ¬ altb lt arr1 m lo = true
          then (b2 - 1, aswap arr1 (b2 - 1) m, k2 + 1) else (b2, arr1, k2)).2.1 k lo = false)
    ∧ (∀ k, c1 ≤ k → k < hi →
        altb lt (if ¬ altb lt arr1 m lo = true
          then (b2 - 1, aswap arr1 (b2 - 1) m, k2 + 1) else (b2, arr1, k2)).2.1 k lo = false) := by
  split
  · rename_i h3
    have h3F : altb lt arr1 m lo = false := by simpa using h3
    dsimp only
    have hbs : b2 - 1 < arr1.size := by omega
    have hms : m < arr1.size := by omega
    have hB1 : (aswap arr1 (b2 - 1) m)[b2 - 1]? = arr1[m]? :=
      aswap_getElem?_left arr1 (b2 - 1) m hbs hms
    have hB2 : (aswap arr1 (b2 - 1) m)[m]? = arr1[b2 - 1]? :=
      aswap_getElem?_right arr1 (b2 - 1) m hbs hms
    have hB3 : ∀ k, k ≠ b2 - 1 → k ≠ m → (aswap arr1 (b2 - 1) m)[k]? = arr1[k]? :=
      fun k h1 h2 => aswap_getElem?_other arr1 (b2 - 1) m k h1 h2
    have hlo3 : (aswap arr1 (b2 - 1) m)[lo]? = arr1[lo]? := hB3 lo (by omega) (by omega)
    refine ⟨Nat.le_refl _, by omega, ?_, ?_, ?_, ?_⟩
    · intro k hk
      exact hB3 k (by omega) (by omega)
    · intro k h1 h2
      rcases eq_or_ne k m with heq | hne
      · rw [heq]
        rw [altb_congr lt hlo3 hB2]
        exact hL1 (b2 - 1) (by omega) (by omega)
      · rw [altb_congr lt hlo3 (hB3 k (by omega) hne)]
        exact hL1 k h1 (by omega)
    · intro k h1 h2
      rcases eq_or_ne k (b2 - 1) with heq | hne
      · rw [heq]
        constructor
        · rw [altb_congr lt hlo3 hB1]
          exact hL1 m hlom (by omega)
        · rw [altb_congr lt hB1 hlo3]
          exact h3F
      · have hk2 : (aswap arr1 (b2 - 1) m)[k]? = arr1[k]? := hB3 k hne (by omega)
        constructor
        · rw [altb_congr lt hlo3 hk2]
          exact (hM1 k (by omega) h2).1
        · rw [altb_congr lt hk2 hlo3]
          exact (hM1 k (by omega) h2).2
    · intro k h1 h2
      have hk2 : (aswap arr1 (b2 - 1) m)[k]? = arr1[k]? := hB3 k (by omega) (by omega)
      rw [altb_congr lt hk2 hlo3]
      exact hG1 k h1 h2
  · rename_i h3
    dsimp only
    refine ⟨by omega, Nat.le_refl _, fun k _ => rfl, ?_, hM1, hG1⟩
    intro k h1 h2
    exact hL1 k h1 (by omega)

/-- Specification of the duplicate-detection block of doPivot: it returns
b and c delimiting a pivot-equal middle run, with the left of b at most
the pivot and everything from c on at least the pivot. -/
theorem doPivotDups_spec (hirr : ∀ x, lt x x = false)
    (htr : ∀ x y z, lt x y = true → lt y z = true → lt x z = true)
    (arr : Array α) (lo m b c hi : Nat)
    (hsz : hi ≤ arr.size) (hc5 : 5 ≤ hi - c)
    (hc4 : hi - c < (hi - lo) / 4) (hcb : c = b) (hm : m = (lo + hi) / 2)
    (hL : ∀ k, lo + 1 ≤ k → k < b → altb lt arr lo k = false)
    (hG : ∀ k, c ≤ k → k < hi - 1 → altb lt arr lo k = true)
    (hHi : altb lt arr (hi - 1) lo = false) :
    b ≤ (doPivotDups lt arr lo m b c hi).1 + 2
    ∧ (doPivotDups lt arr lo m b c hi).1 ≤ b
    ∧ c ≤ (doPivotDups lt arr lo m b c hi).2.1
    ∧ (doPivotDups lt arr lo m b c hi).2.1 ≤ c + 1
    ∧ (∀ k, k ≤ lo ∨ hi ≤ k → (doPivotDups lt arr lo m b c hi).2.2.1[k]? = arr[k]?)
    ∧ (∀ k, lo + 1 ≤ k → k < (doPivotDups lt arr lo m b c hi).1 →
        altb lt (doPivotDups lt arr lo m b c hi).2.2.1 lo k = false)
    ∧ (∀ k, (doPivotDups lt arr lo m b c hi).1 ≤ k →
        k < (doPivotDups lt arr lo m b c hi).2.1 →
        altb lt (doPivotDups lt arr lo m b c hi).2.2.1 lo k = false
        ∧ altb lt (doPivotDups lt arr lo m b c hi).2.2.1 k lo = false)
    ∧ (∀ k, (doPivotDups lt arr lo m b c hi).2.1 ≤ k → k < hi →
        altb lt (doPivotDups lt arr lo m b c hi).2.2.1 k lo = false) := by
  have hmb : m + 2 < b := by omega
  have hlom : lo + 1 ≤ m := by omega
  have hlob : lo + 4 ≤ b := by omega
  have hchi1 : c < hi - 1 := by omega
  have hcs : c < arr.size := by omega
  have hhs : hi - 1 < arr.size := by omega
  unfold doPivotDups
  dsimp only
  split
  · rename_i h1
    have h1F : altb lt arr lo (hi - 1) = false := by simpa using h1
    dsimp only
    have hA1 : (aswap arr c (hi - 1))[c]? = arr[hi - 1]? :=
      aswap_getElem?_left arr c (hi - 1) hcs hhs
    have hA2 : (aswap arr c (hi - 1))[hi - 1]? = arr[c]? :=
      aswap_getElem?_right arr c (hi - 1) hcs hhs
    have hA3 : ∀ k, k ≠ c → k ≠ hi - 1 → (aswap arr c (hi - 1))[k]? = arr[k]? :=
      fun k ha hb2 => aswap_getElem?_other arr c (hi - 1) k ha hb2
    have hlo1 : (aswap arr c (hi - 1))[lo]? = arr[lo]? := hA3 lo (by omega) (by omega)
    have hL1 : ∀ k, lo + 1 ≤ k → k < b → altb lt (aswap arr c (hi - 1)) lo k = false := by
      intro k hk1 hk2
      rw [altb_congr lt hlo1 (hA3 k (by omega) (by omega))]
      exact hL k hk1 hk2
    have hM1 : ∀ k, b ≤ k → k < c + 1 →
        altb lt (aswap arr c (hi - 1)) lo k = false
        ∧ altb lt (aswap arr c (hi - 1)) k lo = false := by
      intro k hk1 hk2
      have hkc : k = c := by omega
      rw [hkc]
      constructor
      · rw [altb_congr lt hlo1 hA1]
        exact h1F
      · rw [altb_congr lt hA1 hlo1]
        exact hHi
    have hG1 : ∀ k, c + 1 ≤ k → k < hi → altb lt (aswap arr c (hi - 1)) k lo = false := by
      intro k hk1 hk2
      rcases eq_or_ne k (hi - 1) with heq | hne
      · rw [heq]
        rw [altb_congr lt hA2 hlo1]
        exact altb_asymm lt hirr htr (hG c (Nat.le_refl c) hchi1)
      · rw [altb_congr lt (hA3 k (by omega) hne) hlo1]
        exact altb_asymm lt hirr htr (hG k (by omega) (by omega))
    rcases Decidable.em (¬ altb lt (aswap arr c (hi - 1)) (b - 1) lo = true) with h2 | h2
    · rw [if_pos h2]
      dsimp only
      have hM2 : ∀ k, b - 1 ≤ k → k < c + 1 →
          altb lt (aswap arr c (hi - 1)) lo k = false
          ∧ altb lt (aswap arr c (hi - 1)) k lo = false := by
        intro k hk1 hk2
        rcases eq_or_ne k (b - 1) with heq | hne
        · rw [heq]
          refine ⟨hL1 (b - 1) (by omega) (by omega), ?_⟩
          simpa using h2
        · exact hM1 k (by omega) hk2
      obtain ⟨t1, t2, t3, t4, t5, t6⟩ := dupsTail_spec lt (aswap arr c (hi - 1)) lo m (b - 1)
        (c + 1) hi (1 + 1) (by rw [aswap_size]; omega) hlom (by omega) (by omega) (by omega)
        (by omega) (fun k u v => hL1 k u (by omega)) hM2 hG1
      refine ⟨by omega, by omega, by omega, by omega, ?_, t4, t5, t6⟩
      intro k hk
      rw [t3 k hk]
      exact hA3 k (by omega) (by omega)
    · rw [if_neg h2]
      dsimp only
      obtain ⟨t1, t2, t3, t4, t5, t6⟩ := dupsTail_spec lt (aswap arr c (hi - 1)) lo m b
        (c + 1) hi 1 (by rw [aswap_size]; omega) hlom (by omega) (by omega) (by omega)
        (by omega) hL1 hM1 hG1
      refine ⟨by omega, by omega, by omega, by omega, ?_, t4, t5, t6⟩
      intro k hk
      rw [t3 k hk]
      exact hA3 k (by omega) (by omega)
  · rename_i h1
    have h1T : altb lt arr lo (hi - 1) = true := by
      rcases Decidable.em (altb lt arr lo (hi - 1) = true) with h | h
      · exact h
      · exact absurd h h1
    dsimp only
    have hG1 : ∀ k, c ≤ k → k < hi → altb lt arr k lo = false := by
      intro k hk1 hk2
      rcases eq_or_ne k (hi - 1) with heq | hne
      · rw [heq]
        exact hHi
      · exact altb_asymm lt hirr htr (hG k hk1 (by omega))
    have hM1 : ∀ k, b ≤ k → k < c →
        altb lt arr lo k = false ∧ altb lt arr k lo = false := by
      intro k hk1 hk2
      exact absurd hk2 (by omega)
    rcases Decidable.em (¬ altb lt arr (b - 1) lo = true) with h2 | h2
    · rw [if_pos h2]
      dsimp only
      have hM2 : ∀ k, b - 1 ≤ k → k < c →
          altb lt arr lo k = false ∧ altb lt arr k lo = false := by
        intro k hk1 hk2
        have hkb : k = b - 1 := by omega
        rw [hkb]
        refine ⟨hL (b - 1) (by omega) (by omega), ?_⟩
        simpa using h2
      obtain ⟨t1, t2, t3, t4, t5, t6⟩ := dupsTail_spec lt arr lo m (b - 1) c hi (0 + 1)
        hsz hlom (by omega) (by omega) (by omega) (by omega)
        (fun k u v => hL k u (by omega)) hM2 hG1
      exact ⟨by omega, by omega, by omega, by omega, t3, t4, t5, t6⟩
    · rw [if_neg h2]
      dsimp only
      obtain ⟨t1, t2, t3, t4, t5, t6⟩ := dupsTail_spec lt arr lo m b c hi 0
        hsz hlom (by omega) (by omega) (by omega) (by omega) hL hM1 hG1
      exact ⟨by omega, by omega, by omega, by omega, t3, t4, t5, t6⟩

/-- The pivot chosen by doPivotInit is at most the element left at hi-1:
the entry invariant of the scanning phase. -/
theorem doPivotInit_spec (hirr : ∀ x, lt x x = false)
    (htr : ∀ x y z, lt x y = true → lt y z = true → lt x z = true)
    (arr0 : Array α) (lo hi : Nat) (hd : 12 < hi - lo) :
    altb lt (doPivotInit lt arr0 lo hi) (hi - 1) lo = false := by
  unfold doPivotInit
  dsimp only
  exact medianOfThree_spec lt hirr htr _ lo ((lo + hi) / 2) (hi - 1)
    (by omega) (by omega) (by omega)

/-- The final Swap(pivot, b-1) of doPivot: given the index-level regions
relative to the pivot position lo, the result satisfies the value-level
three-way partition around the pivot value. -/
theorem doPivotFinal_spec (hirr : ∀ x, lt x x = false)
    (arrE : Array α) (lo b2 c1 hi : Nat)
    (hsz : hi ≤ arrE.size) (hlob : lo + 1 ≤ b2) (hbc : b2 - 1 < c1) (hc1 : c1 ≤ hi)
    (hL : ∀ k, lo + 1 ≤ k → k < b2 → altb lt arrE lo k = false)
    (hM : ∀ k, b2 ≤ k → k < c1 → altb lt arrE lo k = false ∧ altb lt arrE k lo = false)
    (hG : ∀ k, c1 ≤ k → k < hi → altb lt arrE k lo = false) :
    ∃ p : α,
      (∀ k, lo ≤ k → k < b2 - 1 → ∀ x, (aswap arrE lo (b2 - 1))[k]? = some x →
        lt p x = false)
      ∧ (∀ k, b2 - 1 ≤ k → k < c1 → ∀ x, (aswap arrE lo (b2 - 1))[k]? = some x →
          lt p x = false ∧ lt x p = false)
      ∧ (∀ k, c1 ≤ k → k < hi → ∀ x, (aswap arrE lo (b2 - 1))[k]? = some x →
          lt x p = false) := by
  have hlos : lo < arrE.size := by omega
  have hbs : b2 - 1 < arrE.size := by omega
  obtain ⟨p, hp⟩ := getElem?_total hlos
  refine ⟨p, ?_, ?_, ?_⟩
  · intro k hk1 hk2 x hx
    rcases eq_or_ne k lo with heq | hne
    · rw [heq, aswap_getElem?_left arrE lo (b2 - 1) hlos hbs] at hx
      have h := hL (b2 - 1) (by omega) (by omega)
      rw [altb_some lt hp hx] at h
      exact h
    · rw [aswap_getElem?_other arrE lo (b2 - 1) k hne (by omega)] at hx
      have h := hL k (by omega) (by omega)
      rw [altb_some lt hp hx] at h
      exact h
  · intro k hk1 hk2 x hx
    rcases eq_or_ne k (b2 - 1) with heq | hne
    · rw [heq, aswap_getElem?_right arrE lo (b2 - 1) hlos hbs] at hx
      rw [hp] at hx
      obtain rfl := Option.some.inj hx
      exact ⟨hirr p, hirr p⟩
    · rw [aswap_getElem?_other arrE lo (b2 - 1) k (by omega) hne] at hx
      have h := hM k (by omega) hk2
      constructor
      · have h1 := h.1
        rw [altb_some lt hp hx] at h1
        exact h1
      · have h2 := h.2
        rw [altb_some lt hx hp] at h2
        exact h2
  · intro k hk1 hk2 x hx
    rw [aswap_getElem?_other arrE lo (b2 - 1) k (by omega) (by omega)] at hx
    have h := hG k hk1 hk2
    rw [altb_some lt hx hp] at h
    exact h

/-- Full specification of doPivot: it returns lo ≤ midlo < midhi ≤ hi,
touches only [lo, hi), and for some pivot value p the range [lo, midlo)
is at most p, [midlo, midhi) is pivot-equal, and [midhi, hi) is at
least p. -/
theorem doPivot_spec (hirr : ∀ x, lt x x = false)
    (htr : ∀ x y z, lt x y = true → lt y z = true → lt x z = true)
    (arr0 : Array α) (lo hi : Nat)
    (hsz : hi ≤ arr0.size) (hd : 12 < hi - lo) :
    lo ≤ (doPivot lt arr0 lo hi).1
    ∧ (doPivot lt arr0 lo hi).1 < (doPivot lt arr0 lo hi).2.1
    ∧ (doPivot lt arr0 lo hi).2.1 ≤ hi
    ∧ (∀ k, k < lo ∨ hi ≤ k → (doPivot lt arr0 lo hi).2.2[k]? = arr0[k]?)
    ∧ ∃ p : α,
      (∀ k, lo ≤ k → k < (doPivot lt arr0 lo hi).1 →
        ∀ x, (doPivot lt arr0 lo hi).2.2[k]? = some x → lt p x = false)
      ∧ (∀ k, (doPivot lt arr0 lo hi).1 ≤ k → k < (doPivot lt arr0 lo hi).2.1 →
        ∀ x, (doPivot lt arr0 lo hi).2.2[k]? = some x → lt p x = false ∧ lt x p = false)
      ∧ (∀ k, (doPivot lt arr0 lo hi).2.1 ≤ k → k < hi →
        ∀ x, (doPivot lt arr0 lo hi).2.2[k]? = some x → lt x p = false) := by
  have hszB : (doPivotInit lt arr0 lo hi).size = arr0.size :=
    size_eq_of_toList_perm (doPivotInit_perm lt arr0 lo hi)
  have hHiB : altb lt (doPivotInit lt arr0 lo hi) (hi - 1) lo = false :=
    doPivotInit_spec lt hirr htr arr0 lo hi hd
  have hOutB : ∀ k, k < lo ∨ hi ≤ k → (doPivotInit lt arr0 lo hi)[k]? = arr0[k]? :=
    fun k hk => doPivotInit_outside lt arr0 lo hi k (by omega) hk
  unfold doPivot
  dsimp only
  unfold doPivotScan
  dsimp only
  generalize hBdef : doPivotInit lt arr0 lo hi = arrB
  rw [hBdef] at hszB hHiB hOutB
  generalize hadef : advanceA lt arrB lo (hi - 1) hi (lo + 1) = a
  obtain ⟨hA1, hA2, hA3, hA4⟩ := advanceA_spec lt arrB lo (hi - 1) hi (lo + 1) (by omega)
  rw [hadef] at hA1 hA2 hA3 hA4
  have haub : a ≤ hi - 1 := hA2 (by omega)
  obtain ⟨hP1, hP2, hP3, hP4, hP5, hP6⟩ := partitionLoop_spec lt lo hi hi a (hi - 1) arrB
    (by omega) (by omega) haub (Nat.le_refl _) (by omega)
  have hszP : (partitionLoop lt lo hi hi a (hi - 1) arrB).2.2.size = arr0.size := by
    rw [size_eq_of_toList_perm (partitionLoop_perm lt lo hi hi a (hi - 1) arrB)]
    exact hszB
  generalize hPdef : partitionLoop lt lo hi hi a (hi - 1) arrB = P
  rw [hPdef] at hP1 hP2 hP3 hP4 hP5 hP6 hszP
  obtain ⟨b, c, arrC⟩ := P
  dsimp only at hP1 hP2 hP3 hP4 hP5 hP6 hszP ⊢
  have hlob : lo + 1 ≤ a := hA1
  have hE1 : ∀ k, lo + 1 ≤ k → k < a → altb lt arrC k lo = true := by
    intro k h1 h2
    rw [altb_congr lt (hP4 k (Or.inl h2)) (hP4 lo (Or.inl (by omega)))]
    exact hA3 k h1 h2
  have hE3 : ∀ k, b ≤ k → k < hi - 1 → altb lt arrC lo k = true :=
    fun k h1 h2 => hP6 k h1 h2
  have hE4 : altb lt arrC (hi - 1) lo = false := by
    rw [altb_congr lt (hP4 (hi - 1) (Or.inr (Nat.le_refl _))) (hP4 lo (Or.inl (by omega)))]
    exact hHiB
  have hL : ∀ k, lo + 1 ≤ k → k < b → altb lt arrC lo k = false := by
    intro k h1 h2
    rcases Nat.lt_or_ge k a with hk | hk
    · exact altb_asymm lt hirr htr (hE1 k h1 hk)
    · exact hP5 k hk h2
  have hOutC : ∀ k, k < lo ∨ hi ≤ k → arrC[k]? = arr0[k]? := by
    intro k hk
    rw [hP4 k (by omega)]
    exact hOutB k hk
  have hbc : b = c := hP1
  have hab : a ≤ b := hP2
  have hble : b ≤ hi - 1 := hP3
  split
  · rename_i hq
    have hc5 : 5 ≤ hi - c := by omega
    obtain ⟨d1, d2, d3, d4, d5, d6, d7, d8⟩ := doPivotDups_spec lt hirr htr arrC lo
      ((lo + hi) / 2) b c hi (by omega) hc5 hq.2 hbc.symm rfl hL
      (fun k h1 h2 => hE3 k (by omega) h2) hE4
    have hszD : (doPivotDups lt arrC lo ((lo + hi) / 2) b c hi).2.2.1.size = arr0.size := by
      rw [size_eq_of_toList_perm (doPivotDups_perm lt arrC lo ((lo + hi) / 2) b c hi)]
      exact hszP
    generalize hDdef : doPivotDups lt arrC lo ((lo + hi) / 2) b c hi = D
    rw [hDdef] at d1 d2 d3 d4 d5 d6 d7 d8 hszD
    obtain ⟨b1, c1, arrD, flag⟩ := D
    dsimp only at d1 d2 d3 d4 d5 d6 d7 d8 hszD ⊢
    have hOutD : ∀ k, k < lo ∨ hi ≤ k → arrD[k]? = arr0[k]? := by
      intro k hk
      rw [d5 k (by omega)]
      exact hOutC k hk
    have hb1lo : lo + 4 ≤ b1 := by omega
    have hc1b1 : b1 ≤ c1 := by omega
    split
    · rename_i hfl
      obtain ⟨p1, p2, p3, p4, p5⟩ := protectLoop_spec lt lo hi a b1 arrD
        (by omega) (by omega) (by omega) (by omega) d6
      have hszT : (protectLoop lt lo hi a b1 arrD).2.2.size = arr0.size := by
        rw [size_eq_of_toList_perm (protectLoop_perm lt lo hi a b1 arrD)]
        exact hszD
      generalize hTdef : protectLoop lt lo hi a b1 arrD = T
      rw [hTdef] at p1 p2 p3 p4 p5 hszT
      obtain ⟨a2, b2, arrE⟩ := T
      dsimp only at p1 p2 p3 p4 p5 hszT ⊢
      have hM : ∀ k, b2 ≤ k → k < c1 →
          altb lt arrE lo k = false ∧ altb lt arrE k lo = false := by
        intro k h1 h2
        rcases Nat.lt_or_ge k b1 with hk | hk
        · exact p5 k h1 hk
        · have hkE : arrE[k]? = arrD[k]? := p3 k (Or.inr hk)
          have hloE : arrE[lo]? = arrD[lo]? := p3 lo (Or.inl (by omega))
          have h := d7 k hk h2
          exact ⟨by rw [altb_congr lt hloE hkE]; exact h.1,
            by rw [altb_congr lt hkE hloE]; exact h.2⟩
      have hG : ∀ k, c1 ≤ k → k < hi → altb lt arrE k lo = false := by
        intro k h1 h2
        have hkE : arrE[k]? = arrD[k]? := p3 k (Or.inr (by omega))
        have hloE : arrE[lo]? = arrD[lo]? := p3 lo (Or.inl (by omega))
        rw [altb_congr lt hkE hloE]
        exact d8 k h1 h2
      obtain ⟨p, hpL, hpM, hpG⟩ := doPivotFinal_spec lt hirr arrE lo b2 c1 hi
        (by omega) p1 (by omega) (by omega) p4 hM hG
      refine ⟨by omega, by omega, by omega, ?_, p, hpL, hpM, hpG⟩
      intro k hk
      rw [aswap_getElem?_other arrE lo (b2 - 1) k (by omega) (by omega)]
      rw [p3 k (by omega)]
      exact hOutD k hk
    · rename_i hfl
      dsimp only
      obtain ⟨p, hpL, hpM, hpG⟩ := doPivotFinal_spec lt hirr arrD lo b1 c1 hi
        (by omega) (by omega) (by omega) (by omega) d6 d7 d8
      refine ⟨by omega, by omega, by omega, ?_, p, hpL, hpM, hpG⟩
      intro k hk
      rw [aswap_getElem?_other arrD lo (b1 - 1) k (by omega) (by omega)]
      exact hOutD k hk
  · rename_i hq
    dsimp only
    split
    · rename_i hfl
      obtain ⟨p1, p2, p3, p4, p5⟩ := protectLoop_spec lt lo hi a b arrC
        (by omega) (by omega) (by omega) (by omega) hL
      have hszT : (protectLoop lt lo hi a b arrC).2.2.size = arr0.size := by
        rw [size_eq_of_toList_perm (protectLoop_perm lt lo hi a b arrC)]
        exact hszP
      generalize hTdef : protectLoop lt lo hi a b arrC = T
      rw [hTdef] at p1 p2 p3 p4 p5 hszT
      obtain ⟨a2, b2, arrE⟩ := T
      dsimp only at p1 p2 p3 p4 p5 hszT ⊢
      have hM : ∀ k, b2 ≤ k → k < c →
          altb lt arrE lo k = false ∧ altb lt arrE k lo = false := by
        intro k h1 h2
        rcases Nat.lt_or_ge k b with hk | hk
        · exact p5 k h1 hk
        · exact absurd h2 (by omega)
      have hG : ∀ k, c ≤ k → k < hi → altb lt arrE k lo = false := by
        intro k h1 h2
        have hkE : arrE[k]? = arrC[k]? := p3 k (Or.inr (by omega))
        have hloE : arrE[lo]? = arrC[lo]? := p3 lo (Or.inl (by omega))
        rw [altb_congr lt hkE hloE]
        rcases eq_or_ne k (hi - 1) with heq | hne
        · rw [heq]
          exact hE4
        · exact altb_asymm lt hirr htr (hE3 k (by omega) (by omega))
      obtain ⟨p, hpL, hpM, hpG⟩ := doPivotFinal_spec lt hirr arrE lo b2 c hi
        (by omega) p1 (by omega) (by omega) p4 hM hG
      refine ⟨by omega, by omega, by omega, ?_, p, hpL, hpM, hpG⟩
      intro k hk
      rw [aswap_getElem?_other arrE lo (b2 - 1) k (by omega) (by omega)]
      rw [p3 k (by omega)]
      exact hOutC k hk
    · rename_i hfl
      dsimp only
      have hM : ∀ k, b ≤ k → k < c →
          altb lt arrC lo k = false ∧ altb lt arrC k lo = false := by
        intro k h1 h2
        exact absurd h2 (by omega)
      have hG : ∀ k, c ≤ k → k < hi → altb lt arrC k lo = false := by
        intro k h1 h2
        rcases eq_or_ne k (hi - 1) with heq | hne
        · rw [heq]
          exact hE4
        · exact altb_asymm lt hirr htr (hE3 k (by omega) (by omega))
      obtain ⟨p, hpL, hpM, hpG⟩ := doPivotFinal_spec lt hirr arrC lo b c hi
        (by omega) (by omega) (by omega) (by omega) hL hM hG
      refine ⟨by omega, by omega, by omega, ?_, p, hpL, hpM, hpG⟩
      intro k hk
      rw [aswap_getElem?_other arrC lo (b - 1) k (by omega) (by omega)]
      exact hOutC k hk

/-! quickSort assembly. -/

/-- The gap-6 pass touches only [i - 6, i + n). -/
theorem shellGo_outside : ∀ (n i : Nat) (arr : Array α) (k : Nat),
    k + 6 < i ∨ i + n ≤ k → (shellGo lt n i arr)[k]? = arr[k]? := by
  intro n
  induction n with
  | zero => intro i arr k hk; rfl
  | succ n ih =>
    intro i arr k hk
    rw [shellGo]
    rw [ih (i + 1) _ k (by omega)]
    split
    · exact aswap_getElem?_other arr i (i - 6) k (by omega) (by omega)
    · rfl

/-- The shell pass touches only [a, b). -/
theorem shellPass_outside (arr : Array α) (a b k : Nat) (hk : k < a ∨ b ≤ k) :
    (shellPass lt arr a b)[k]? = arr[k]? := by
  unfold shellPass
  by_cases hab : b ≤ a + 6
  · have h0 : b - (a + 6) = 0 := by omega
    rw [h0]
    rfl
  · exact shellGo_outside lt (b - (a + 6)) (a + 6) arr k (by omega)

/-- The shell pass preserves the size. -/
theorem shellPass_size (arr : Array α) (a b : Nat) : (shellPass lt arr a b).size = arr.size := by
  unfold shellPass
  exact size_eq_of_toList_perm (shellGo_perm lt (b - (a + 6)) (a + 6) arr)

/-- Gluing the two recursively sorted halves of quickSort around the
pivot-equal middle band. -/
theorem partition_glue (hng : ∀ x y z, lt x z = true → lt x y = true ∨ lt y z = true)
    (arr3 : Array α) (a mlo mhi b : Nat) (p : α) (h2 : mlo ≤ mhi)
    (hregL : ∀ k, a ≤ k → k < mlo → ∀ x, arr3[k]? = some x → lt p x = false)
    (hregM : ∀ k, mlo ≤ k → k < mhi → ∀ x, arr3[k]? = some x →
      lt p x = false ∧ lt x p = false)
    (hregR : ∀ k, mhi ≤ k → k < b → ∀ x, arr3[k]? = some x → lt x p = false)
    (hsl : ISorted lt arr3 a mlo) (hsr : ISorted lt arr3 mhi b) :
    ISorted lt arr3 a b := by
  have hle : ∀ k, a ≤ k → k < mhi → ∀ x, arr3[k]? = some x → lt p x = false := by
    intro k hk1 hk2 x hx
    rcases Nat.lt_or_ge k mlo with hk | hk
    · exact hregL k hk1 hk x hx
    · exact (hregM k hk hk2 x hx).1
  have hge : ∀ k, mlo ≤ k → k < b → ∀ y, arr3[k]? = some y → lt y p = false := by
    intro k hk1 hk2 y hy
    rcases Nat.lt_or_ge k mhi with hk | hk
    · exact (hregM k hk1 hk y hy).2
    · exact hregR k hk hk2 y hy
  have hcross : ∀ i j, a ≤ i → i < mlo → mlo ≤ j → j < b → altb lt arr3 j i = false := by
    intro i j hi1 hi2 hj1 hj2
    rcases hx : arr3[i]? with _ | x
    · exact altb_none_right lt hx
    · rcases hy : arr3[j]? with _ | y
      · exact altb_none_left lt hy
      · rw [altb_some lt hy hx]
        exact lt_le_trans_of lt hng x p y (hle i hi1 (by omega) x hx) (hge j hj1 hj2 y hy)
  have hmid : ISorted lt arr3 mlo mhi := by
    intro i j hi1 hij hj2
    rcases hx : arr3[i]? with _ | x
    · exact altb_none_right lt hx
    · rcases hy : arr3[j]? with _ | y
      · exact altb_none_left lt hy
      · rw [altb_some lt hy hx]
        exact lt_le_trans_of lt hng x p y ((hregM i hi1 (by omega) x hx).1)
          ((hregM j (by omega) hj2 y hy).2)
  have hcross2 : ∀ i j, mlo ≤ i → i < mhi → mhi ≤ j → j < b → altb lt arr3 j i = false := by
    intro i j hi1 hi2 hj1 hj2
    rcases hx : arr3[i]? with _ | x
    · exact altb_none_right lt hx
    · rcases hy : arr3[j]? with _ | y
      · exact altb_none_left lt hy
      · rw [altb_some lt hy hx]
        exact lt_le_trans_of lt hng x p y ((hregM i hi1 hi2 x hx).1) (hregR j hj1 hj2 y hy)
  exact isorted_of_blocks lt hsl (isorted_of_blocks lt hmid hsr hcross2) hcross

/-- quickSort touches only positions inside [a, b). -/
theorem quickSortGo_outside (hirr : ∀ x, lt x x = false)
    (htr : ∀ x y z, lt x y = true → lt y z = true → lt x z = true) :
    ∀ (fuel : Nat) (arr : Array α) (a b maxD k : Nat),
    b ≤ arr.size → (k < a ∨ b ≤ k) →
    (quickSortGo lt fuel arr a b maxD)[k]? = arr[k]? := by
  intro fuel
  induction fuel with
  | zero => intro arr a b maxD k hsz hk; rfl
  | succ fuel ih =>
    intro arr a b maxD k hsz hk
    rw [quickSortGo]
    dsimp only
    split
    · rename_i h12
      split
      · exact heapSort_outside lt arr a b k hk
      · rename_i hmd0
        obtain ⟨q1, q2, q3, q4, q5⟩ := doPivot_spec lt hirr htr arr a b hsz (by omega)
        have hszC : (doPivot lt arr a b).2.2.size = arr.size :=
          size_eq_of_toList_perm (doPivot_perm lt arr a b)
        generalize hRdef : doPivot lt arr a b = R
        rw [hRdef] at q1 q2 q3 q4 hszC
        obtain ⟨mlo, mhi, arr1⟩ := R
        dsimp only at q1 q2 q3 q4 hszC ⊢
        have hsz2 : (quickSortGo lt fuel arr1 a mlo (maxD - 1)).size = arr.size := by
          rw [size_eq_of_toList_perm (quickSortGo_perm lt fuel arr1 a mlo (maxD - 1))]
          exact hszC
        have hsz2' : (quickSortGo lt fuel arr1 mhi b (maxD - 1)).size = arr.size := by
          rw [size_eq_of_toList_perm (quickSortGo_perm lt fuel arr1 mhi b (maxD - 1))]
          exact hszC
        split
        · rw [ih (quickSortGo lt fuel arr1 a mlo (maxD - 1)) mhi b (maxD - 1) k
            (by omega) (by omega)]
          rw [ih arr1 a mlo (maxD - 1) k (by omega) (by omega)]
          exact q4 k hk
        · rw [ih (quickSortGo lt fuel arr1 mhi b (maxD - 1)) a mlo (maxD - 1) k
            (by omega) (by omega)]
          rw [ih arr1 mhi b (maxD - 1) k (by omega) (by omega)]
          exact q4 k hk
    · split
      · rw [insertionSort_outside lt (shellPass lt arr a b) a b k hk]
        exact shellPass_outside lt arr a b k hk
      · rfl

/-- quickSort sorts its range whenever the fuel exceeds the depth limit,
which sort.Slice always arranges. -/
theorem quickSortGo_sorted (hirr : ∀ x, lt x x = false)
    (htr : ∀ x y z, lt x y = true → lt y z = true → lt x z = true)
    (hng : ∀ x y z, lt x z = true → lt x y = true ∨ lt y z = true) :
    ∀ (fuel : Nat) (arr : Array α) (a b maxD : Nat),
    b ≤ arr.size → maxD + 1 ≤ fuel →
    ISorted lt (quickSortGo lt fuel arr a b maxD) a b := by
  intro fuel
  induction fuel with
  | zero => intro arr a b maxD hsz hf; exact absurd hf (by omega)
  | succ fuel ih =>
    intro arr a b maxD hsz hf
    rw [quickSortGo]
    dsimp only
    split
    · rename_i h12
      split
      · rename_i hmd0
        exact heapSort_sorted lt hirr htr hng arr a b (by omega) hsz
      · rename_i hmd0
        obtain ⟨q1, q2, q3, q4, q5⟩ := doPivot_spec lt hirr htr arr a b hsz (by omega)
        obtain ⟨p, hL1, hM1, hR1⟩ := q5
        have hszC : (doPivot lt arr a b).2.2.size = arr.size :=
          size_eq_of_toList_perm (doPivot_perm lt arr a b)
        generalize hRdef : doPivot lt arr a b = R
        rw [hRdef] at q1 q2 q3 q4 hL1 hM1 hR1 hszC
        obtain ⟨mlo, mhi, arr1⟩ := R
        dsimp only at q1 q2 q3 q4 hL1 hM1 hR1 hszC ⊢
        have hmd1 : maxD - 1 + 1 ≤ fuel := by omega
        split
        · rename_i hsmall
          have hsz2 : (quickSortGo lt fuel arr1 a mlo (maxD - 1)).size = arr.size := by
            rw [size_eq_of_toList_perm (quickSortGo_perm lt fuel arr1 a mlo (maxD - 1))]
            exact hszC
          have hS1 : ISorted lt (quickSortGo lt fuel arr1 a mlo (maxD - 1)) a mlo :=
            ih arr1 a mlo (maxD - 1) (by omega) hmd1
          have hout2 : ∀ k, k < a ∨ mlo ≤ k →
              (quickSortGo lt fuel arr1 a mlo (maxD - 1))[k]? = arr1[k]? :=
            fun k hk => quickSortGo_outside lt hirr htr fuel arr1 a mlo (maxD - 1) k
              (by omega) hk
          have hS2 : ISorted lt (quickSortGo lt fuel
              (quickSortGo lt fuel arr1 a mlo (maxD - 1)) mhi b (maxD - 1)) mhi b :=
            ih (quickSortGo lt fuel arr1 a mlo (maxD - 1)) mhi b (maxD - 1)
              (by omega) hmd1
          have hout3 : ∀ k, k < mhi ∨ b ≤ k →
              (quickSortGo lt fuel (quickSortGo lt fuel arr1 a mlo (maxD - 1))
                mhi b (maxD - 1))[k]? = (quickSortGo lt fuel arr1 a mlo (maxD - 1))[k]? :=
            fun k hk => quickSortGo_outside lt hirr htr fuel
              (quickSortGo lt fuel arr1 a mlo (maxD - 1)) mhi b (maxD - 1) k (by omega) hk
          have hregL2 := range_prop_transfer arr1 (quickSortGo lt fuel arr1 a mlo (maxD - 1))
            a mlo (fun x => lt p x = false)
            (aslice_perm_of_outside _ _ a mlo (quickSortGo_perm lt fuel arr1 a mlo (maxD - 1))
              hout2) hL1
          have hregL3 := region_value_congr (quickSortGo lt fuel arr1 a mlo (maxD - 1))
            (quickSortGo lt fuel (quickSortGo lt fuel arr1 a mlo (maxD - 1)) mhi b (maxD - 1))
            a mlo (fun x => lt p x = false)
            (fun k hk1 hk2 => hout3 k (Or.inl (by omega))) hregL2
          have hregM2 := region_value_congr arr1 (quickSortGo lt fuel arr1 a mlo (maxD - 1))
            mlo mhi (fun x => lt p x = false ∧ lt x p = false)
            (fun k hk1 hk2 => hout2 k (Or.inr hk1)) hM1
          have hregM3 := region_value_congr (quickSortGo lt fuel arr1 a mlo (maxD - 1))
            (quickSortGo lt fuel (quickSortGo lt fuel arr1 a mlo (maxD - 1)) mhi b (maxD - 1))
            mlo mhi (fun x => lt p x = false ∧ lt x p = false)
            (fun k hk1 hk2 => hout3 k (Or.inl hk2)) hregM2
          have hregR2 := region_value_congr arr1 (quickSortGo lt fuel arr1 a mlo (maxD - 1))
            mhi b (fun x => lt x p = false)
            (fun k hk1 hk2 => hout2 k (Or.inr (by omega))) hR1
          have hregR3 := range_prop_transfer (quickSortGo lt fuel arr1 a mlo (maxD - 1))
            (quickSortGo lt fuel (quickSortGo lt fuel arr1 a mlo (maxD - 1)) mhi b (maxD - 1))
            mhi b (fun x => lt x p = false)
            (aslice_perm_of_outside _ _ mhi b
              (quickSortGo_perm lt fuel (quickSortGo lt fuel arr1 a mlo (maxD - 1))
                mhi b (maxD - 1)) hout3) hregR2
          have hsl3 : ISorted lt (quickSortGo lt fuel
              (quickSortGo lt fuel arr1 a mlo (maxD - 1)) mhi b (maxD - 1)) a mlo :=
            isorted_congr lt (fun k hk1 hk2 => hout3 k (Or.inl (by omega))) hS1
          exact partition_glue lt hng _ a mlo mhi b p (by omega)
            hregL3 hregM3 hregR3 hsl3 hS2
        · rename_i hsmall
          have hsz2 : (quickSortGo lt fuel arr1 mhi b (maxD - 1)).size = arr.size := by
            rw [size_eq_of_toList_perm (quickSortGo_perm lt fuel arr1 mhi b (maxD - 1))]
            exact hszC
          have hS1 : ISorted lt (quickSortGo lt fuel arr1 mhi b (maxD - 1)) mhi b :=
            ih arr1 mhi b (maxD - 1) (by omega) hmd1
          have hout2 : ∀ k, k < mhi ∨ b ≤ k →
              (quickSortGo lt fuel arr1 mhi b (maxD - 1))[k]? = arr1[k]? :=
            fun k hk => quickSortGo_outside lt hirr htr fuel arr1 mhi b (maxD - 1) k
              (by omega) hk
          have hS2 : ISorted lt (quickSortGo lt fuel
              (quickSortGo lt fuel arr1 mhi b (maxD - 1)) a mlo (maxD - 1)) a mlo :=
            ih (quickSortGo lt fuel arr1 mhi b (maxD - 1)) a mlo (maxD - 1)
              (by omega) hmd1
          have hout3 : ∀ k, k < a ∨ mlo ≤ k →
              (quickSortGo lt fuel (quickSortGo lt fuel arr1 mhi b (maxD - 1))
                a mlo (maxD - 1))[k]? = (quickSortGo lt fuel arr1 mhi b (maxD - 1))[k]? :=
            fun k hk => quickSortGo_outside lt hirr htr fuel
              (quickSortGo lt fuel arr1 mhi b (maxD - 1)) a mlo (maxD - 1) k (by omega) hk
          have hregL2 := region_value_congr arr1 (quickSortGo lt fuel arr1 mhi b (maxD - 1))
            a mlo (fun x => lt p x = false)
            (fun k hk1 hk2 => hout2 k (Or.inl (by omega))) hL1
          have hregL3 := range_prop_transfer (quickSortGo lt fuel arr1 mhi b (maxD - 1))
            (quickSortGo lt fuel (quickSortGo lt fuel arr1 mhi b (maxD - 1)) a mlo (maxD - 1))
            a mlo (fun x => lt p x = false)
            (aslice_perm_of_outside _ _ a mlo
              (quickSortGo_perm lt fuel (quickSortGo lt fuel arr1 mhi b (maxD - 1))
                a mlo (maxD - 1)) hout3) hregL2
          have hregM2 := region_value_congr arr1 (quickSortGo lt fuel arr1 mhi b (maxD - 1))
            mlo mhi (fun x => lt p x = false ∧ lt x p = false)
            (fun k hk1 hk2 => hout2 k (Or.inl hk2)) hM1
          have hregM3 := region_value_congr (quickSortGo lt fuel arr1 mhi b (maxD - 1))
            (quickSortGo lt fuel (quickSortGo lt fuel arr1 mhi b (maxD - 1)) a mlo (maxD - 1))
            mlo mhi (fun x => lt p x = false ∧ lt x p = false)
            (fun k hk1 hk2 => hout3 k (Or.inr hk1)) hregM2
          have hregR2 := range_prop_transfer arr1 (quickSortGo lt fuel arr1 mhi b (maxD - 1))
            mhi b (fun x => lt x p = false)
            (aslice_perm_of_outside _ _ mhi b (quickSortGo_perm lt fuel arr1 mhi b (maxD - 1))
              hout2) hR1
          have hregR3 := region_value_congr (quickSortGo lt fuel arr1 mhi b (maxD - 1))
            (quickSortGo lt fuel (quickSortGo lt fuel arr1 mhi b (maxD - 1)) a mlo (maxD - 1))
            mhi b (fun x => lt x p = false)
            (fun k hk1 hk2 => hout3 k (Or.inr (by omega))) hregR2
          have hsr3 : ISorted lt (quickSortGo lt fuel
              (quickSortGo lt fuel arr1 mhi b (maxD - 1)) a mlo (maxD - 1)) mhi b :=
            isorted_congr lt (fun k hk1 hk2 => hout3 k (Or.inr (by omega))) hS1
          exact partition_glue lt hng _ a mlo mhi b p (by omega)
            hregL3 hregM3 hregR3 hS2 hsr3
    · split
      · rename_i h1b
        have hszS : (shellPass lt arr a b).size = arr.size := shellPass_size lt arr a b
        exact insertionSort_sorted lt hirr htr hng (shellPass lt arr a b) a b (by omega)
      · rename_i h1b
        exact isorted_small lt (by omega)

/-- sort.Slice sorts the whole array. -/
theorem sortSlice_sorted (hirr : ∀ x, lt x x = false)
    (htr : ∀ x y z, lt x y = true → lt y z = true → lt x z = true)
    (hng : ∀ x y z, lt x z = true → lt x y = true ∨ lt y z = true)
    (arr : Array α) :
    ISorted lt (sortSlice lt arr) 0 arr.size := by
  unfold sortSlice
  exact quickSortGo_sorted lt hirr htr hng (maxDepthFn arr.size + 1) arr 0 arr.size
    (maxDepthFn arr.size) (Nat.le_refl _) (Nat.le_refl _)

/-- An array sorted on its whole range has a pairwise-ordered element
list. -/
theorem pairwise_of_isorted (arr : Array α) (h : ISorted lt arr 0 arr.size) :
    List.Pairwise (fun x y => lt y x = false) arr.toList := by
  rw [List.pairwise_iff_getElem]
  intro i j hi hj hij
  have hlen : arr.toList.length = arr.size := by simp
  have hx : arr[i]? = some arr.toList[i] := by
    rw [Array.getElem?_eq_getElem?_toList]
    exact List.getElem?_eq_getElem hi
  have hy : arr[j]? = some arr.toList[j] := by
    rw [Array.getElem?_eq_getElem?_toList]
    exact List.getElem?_eq_getElem hj
  have hs := h i j (Nat.zero_le _) hij (by omega)
  rw [altb_some lt hy hx] at hs
  exact hs

/-- sort.Slice with a strict-weak-order comparator produces a pairwise
non-inverted list. -/
theorem sortSlice_pairwise (hirr : ∀ x, lt x x = false)
    (htr : ∀ x y z, lt x y = true → lt y z = true → lt x z = true)
    (hng : ∀ x y z, lt x z = true → lt x y = true ∨ lt y z = true)
    (arr : Array α) :
    List.Pairwise (fun x y => lt y x = false) (sortSlice lt arr).toList := by
  have hsz : (sortSlice lt arr).size = arr.size :=
    size_eq_of_toList_perm (sortSlice_perm lt arr)
  have h := sortSlice_sorted lt hirr htr hng arr
  rw [← hsz] at h
  exact pairwise_of_isorted lt _ h

end SortedProofs

/-! The four comparators are strict weak orders. -/

/-- The code-point comparison is irreflexive. -/
theorem charListLt_irrefl : ∀ l : List Char, charListLt l l = false := by
  intro l
  induction l with
  | nil => rfl
  | cons c s ih => simp [charListLt, ih]

/-- The code-point comparison is transitive. -/
theorem charListLt_trans : ∀ (l1 l2 l3 : List Char),
    charListLt l1 l2 = true → charListLt l2 l3 = true → charListLt l1 l3 = true := by
  intro l1
  induction l1 with
  | nil =>
    intro l2 l3 h1 h2
    cases l2 with
    | nil => simp [charListLt] at h1
    | cons d t2 =>
      cases l3 with
      | nil => simp [charListLt] at h2
      | cons e t3 => rfl
  | cons c s ih =>
    intro l2 l3 h1 h2
    cases l2 with
    | nil => simp [charListLt] at h1
    | cons d t2 =>
      cases l3 with
      | nil => simp [charListLt] at h2
      | cons e t3 =>
        rw [charListLt] at h1 h2 ⊢
        by_cases hcd : c.toNat < d.toNat
        · by_cases hde : d.toNat < e.toNat
          · rw [if_pos (by omega : c.toNat < e.toNat)]
          · rw [if_neg hde] at h2
            by_cases hed : e.toNat < d.toNat
            · rw [if_pos hed] at h2
              cases h2
            · rw [if_pos (by omega : c.toNat < e.toNat)]
        · rw [if_neg hcd] at h1
          by_cases hdc : d.toNat < c.toNat
          · rw [if_pos hdc] at h1
            cases h1
          · rw [if_neg hdc] at h1
            by_cases hde : d.toNat < e.toNat
            · rw [if_pos (by omega : c.toNat < e.toNat)]
            · rw [if_neg hde] at h2
              by_cases hed : e.toNat < d.toNat
              · rw [if_pos hed] at h2
                cases h2
              · rw [if_neg hed] at h2
                rw [if_neg (by omega : ¬ c.toNat < e.toNat),
                  if_neg (by omega : ¬ e.toNat < c.toNat)]
                exact ih t2 t3 h1 h2

/-- The complement of the code-point comparison composes with it. -/
theorem charListLt_le_lt_trans : ∀ (a b c : List Char),
    charListLt a b = false → charListLt a c = true → charListLt b c = true := by
  intro a
  induction a with
  | nil =>
    intro b c h1 h2
    cases b with
    | nil => exact h2
    | cons y t => simp [charListLt] at h1
  | cons x s ih =>
    intro b c h1 h2
    cases c with
    | nil => simp [charListLt] at h2
    | cons z u =>
      cases b with
      | nil => rfl
      | cons y t =>
        rw [charListLt] at h1 h2 ⊢
        by_cases hxy : x.toNat < y.toNat
        · rw [if_pos hxy] at h1
          cases h1
        · rw [if_neg hxy] at h1
          by_cases hyx : y.toNat < x.toNat
          · by_cases hxz : x.toNat < z.toNat
            · rw [if_pos (by omega : y.toNat < z.toNat)]
            · rw [if_neg hxz] at h2
              by_cases hzx : z.toNat < x.toNat
              · rw [if_pos hzx] at h2
                cases h2
              · rw [if_pos (by omega : y.toNat < z.toNat)]
          · rw [if_neg hyx] at h1
            by_cases hxz : x.toNat < z.toNat
            · rw [if_pos (by omega : y.toNat < z.toNat)]
            · rw [if_neg hxz] at h2
              by_cases hzx : z.toNat < x.toNat
              · rw [if_pos hzx] at h2
                cases h2
              · rw [if_neg hzx] at h2
                rw [if_neg (by omega : ¬ y.toNat < z.toNat),
                  if_neg (by omega : ¬ z.toNat < y.toNat)]
                exact ih t u h1 h2

/-- ltAuthorName is a strict weak order. -/
theorem ltAuthorName_swo :
    (∀ x, ltAuthorName x x = false)
    ∧ (∀ x y z, ltAuthorName x y = true → ltAuthorName y z = true →
        ltAuthorName x z = true)
    ∧ (∀ x y z, ltAuthorName x z = true →
        ltAuthorName x y = true ∨ ltAuthorName y z = true) := by
  refine ⟨?_, ?_, ?_⟩
  · intro x
    exact charListLt_irrefl _
  · intro x y z h1 h2
    exact charListLt_trans _ _ _ h1 h2
  · intro x y z h
    rcases Decidable.em (ltAuthorName x y = true) with hxy | hxy
    · exact Or.inl hxy
    · refine Or.inr ?_
      have hxyF : charListLt (strToLower x.Owner.Login).data
          (strToLower y.Owner.Login).data = false := by
        simpa [ltAuthorName, strLt] using hxy
      exact charListLt_le_lt_trans _ _ _ hxyF h

/-- ltRepositoryName is a strict weak order. -/
theorem ltRepositoryName_swo :
    (∀ x, ltRepositoryName x x = false)
    ∧ (∀ x y z, ltRepositoryName x y = true → ltRepositoryName y z = true →
        ltRepositoryName x z = true)
    ∧ (∀ x y z, ltRepositoryName x z = true →
        ltRepositoryName x y = true ∨ ltRepositoryName y z = true) := by
  refine ⟨?_, ?_, ?_⟩
  · intro x
    exact charListLt_irrefl _
  · intro x y z h1 h2
    exact charListLt_trans _ _ _ h1 h2
  · intro x y z h
    rcases Decidable.em (ltRepositoryName x y = true) with hxy | hxy
    · exact Or.inl hxy
    · refine Or.inr ?_
      have hxyF : charListLt (strToLower x.Name).data (strToLower y.Name).data = false := by
        simpa [ltRepositoryName, strLt] using hxy
      exact charListLt_le_lt_trans _ _ _ hxyF h

/-- ltCreatedAt is a strict weak order. -/
theorem ltCreatedAt_swo :
    (∀ x, ltCreatedAt x x = false)
    ∧ (∀ x y z, ltCreatedAt x y = true → ltCreatedAt y z = true → ltCreatedAt x z = true)
    ∧ (∀ x y z, ltCreatedAt x z = true →
        ltCreatedAt x y = true ∨ ltCreatedAt y z = true) := by
  refine ⟨?_, ?_, ?_⟩
  · intro x
    simp [ltCreatedAt]
  · intro x y z h1 h2
    simp only [ltCreatedAt, decide_eq_true_eq] at h1 h2 ⊢
    omega
  · intro x y z h
    simp only [ltCreatedAt, decide_eq_true_eq] at h ⊢
    omega

/-- ltUpdatedAt is a strict weak order. -/
theorem ltUpdatedAt_swo :
    (∀ x, ltUpdatedAt x x = false)
    ∧ (∀ x y z, ltUpdatedAt x y = true → ltUpdatedAt y z = true → ltUpdatedAt x z = true)
    ∧ (∀ x y z, ltUpdatedAt x z = true →
        ltUpdatedAt x y = true ∨ ltUpdatedAt y z = true) := by
  refine ⟨?_, ?_, ?_⟩
  · intro x
    simp [ltUpdatedAt]
  · intro x y z h1 h2
    simp only [ltUpdatedAt, decide_eq_true_eq] at h1 h2 ⊢
    omega
  · intro x y z h
    simp only [ltUpdatedAt, decide_eq_true_eq] at h ⊢
    omega

/-! Claims. -/

/-- C1, counterexample: a malformed payload on page 2 is not fatal.  The
fetch function serves one good record on page 1 and a malformed body on
page 2; the run nevertheless returns a value, namely exactly the records
of page 1, after fetching pages 1 and 2.  This contradicts the claim that
a decode failure aborts the run with no value and that a malformed page
never lets the run proceed with only the earlier pages. -/
theorem claim_C1_counterexample :
    exFetchMalformed 2 = .body none
    ∧ aggregate exFetchMalformed 2 = some (.ok ([exStar1], [1, 2])) := by
  constructor
  · rfl
  · rfl

/-- C1, amended: after any block of well-decoded non-empty pages, a
transport failure on the next page is fatal (the run propagates log.Fatal
and returns no star list), but a malformed payload on the next page is
silently treated as the empty page: retrieval stops and the run returns
exactly the records of the earlier pages. -/
theorem claim_C1_amended (ps : List (List Star)) (fetch : Nat → PageResponse)
    (hp : ∀ (k : Nat) (hk : k < ps.length), fetch (k + 1) = .body (some ps[k]) ∧ ps[k] ≠ []) :
    (fetch (ps.length + 1) = .transportError →
      aggregate fetch (ps.length + 1) = some (.error ()))
    ∧ (fetch (ps.length + 1) = .body none →
      aggregate fetch (ps.length + 1) = some (.ok (ps.flatten, List.range' 1 (ps.length + 1)))) :=
  ⟨fun h => aggregate_transport_fatal ps fetch hp h,
   fun h => aggregate_malformed_keeps_prefix_pages ps fetch hp h⟩

/-- C1, witness: the amended theorem applied to a one-page prefix followed
by a transport failure. -/
theorem claim_C1_witness :
    aggregate exFetchTransport 2 = some (.error ()) :=
  (claim_C1_amended [[exStar1]] exFetchTransport (by decide)).1 (by decide)

/-- C2, counterexample: at terminal width 10 the description hello
triggers the truncation branch (5 > 10 - 22) and the Go slice bound
10 - 25 is negative, so the step panics instead of producing a short
truncation; the claimed totality fails for widths below the margin. -/
theorem claim_C2_counterexample : truncateDescription 10 "hello" = none := by
  rfl

/-- C2, amended: the truncation step is total for every terminal width of
at least 25 columns (and for narrower widths whenever the description is
short enough to skip the cut); a width of at most 24 columns with a
description longer than width - 22 makes the slice lower bound negative
and the run panics. -/
theorem claim_C2_amended (width : Nat) (desc : String) (h : 25 ≤ width) :
    (truncateDescription width desc).isSome = true :=
  truncateDescription_isSome_of_wide width desc h

/-- C2, witness: the amended theorem applied at width 30 to a long
description. -/
theorem claim_C2_witness :
    25 ≤ 30 ∧ (truncateDescription 30 "a quite long description").isSome = true :=
  ⟨by decide, claim_C2_amended 30 "a quite long description" (by decide)⟩

/-- C3, counterexample: sorting by author-name is not stable.  In ex7 the
records exTieEarly and exTieLate carry equal case-insensitive owner
handles and exTieEarly precedes exTieLate, yet after sorting exTieLate
precedes exTieEarly: the gap-6 pass of the Go sort moves the later record
across the earlier one. -/
theorem claim_C3_counterexample :
    strToLower exTieLate.Owner.Login = strToLower exTieEarly.Owner.Login
    ∧ ex7.indexOf exTieEarly < ex7.indexOf exTieLate
    ∧ (sortItemOrder ex7 "author-name" false).indexOf exTieLate
        < (sortItemOrder ex7 "author-name" false).indexOf exTieEarly := by
  refine ⟨rfl, by decide, ?_⟩
  have hsorted : sortItemOrder ex7 "author-name" false =
      [exTieLate, exTieEarly, mkStar 0 "b", mkStar 2 "c", mkStar 3 "d", mkStar 4 "e", mkStar 5 "f"] := by
    rfl
  rw [hsorted]
  decide

/-- C3, amended: sorting preserves the relative order of records exactly
for the default added-at key (so ties trivially keep their order there),
but for the comparator keys the sort is the unstable Go sort.Slice and
equal-keyed records may be reordered, as the counterexample shows. -/
theorem claim_C3_amended (stars : List Star) :
    sortItemOrder stars "added-at" false = stars :=
  sortItemOrder_added_at stars

/-- C4: when pages 1 through N-1 decode to non-empty record lists and page
N decodes to the empty array, the retrieval run returns exactly the
concatenation of pages 1 through N-1 in page order, and the fetch calls
are exactly the consecutive page numbers 1 through N. -/
theorem claim_C4 (ps : List (List Star)) (fetch : Nat → PageResponse)
    (hp : ∀ (k : Nat) (hk : k < ps.length), fetch (k + 1) = .body (some ps[k]) ∧ ps[k] ≠ [])
    (hlast : fetch (ps.length + 1) = .body (some [])) :
    aggregate fetch (ps.length + 1) = some (.ok (ps.flatten, List.range' 1 (ps.length + 1))) :=
  aggregate_pages ps fetch hp hlast

/-- C4, witness: two non-empty pages followed by an empty page give the
two records in page order after exactly three fetch calls. -/
theorem claim_C4_witness :
    aggregate exFetchPages 3 = some (.ok ([exStar1, exStar2], [1, 2, 3])) :=
  claim_C4 [[exStar1], [exStar2]] exFetchPages (by decide) (by decide)

/-- C5, counterexample: at width 24 the description abc satisfies
3 > 24 - 22, so the claim requires a truncated output of length at most 2,
but the step panics (negative slice bound) and produces no output at all;
moreover a description that happens to end in the three-dot marker is left
unchanged at a large width, so an output can end in the marker without any
truncation having occurred, contradicting the claimed exactly-when. -/
theorem claim_C5_counterexample :
    truncateDescription 24 "abc" = none
    ∧ truncateDescription 100 "ab..." = some "ab..."
    ∧ (∃ pre, ("ab..." : String) = pre ++ "...") := by
  refine ⟨rfl, rfl, ⟨"ab", rfl⟩⟩

/-- C5, amended: for widths of at least 25 columns, a description longer
than width - 22 becomes its first width - 25 characters with the ellipsis
marker appended, giving length exactly width - 22, and a description of
length at most width - 22 is unchanged (such a description may itself end
in the marker); for narrower widths a triggering description panics. -/
theorem claim_C5_amended (width : Nat) (desc : String) (h : 25 ≤ width) :
    ((desc.length : Int) > (width : Int) - 22 →
      truncateDescription width desc = some (String.mk (desc.data.take (width - 25)) ++ "...")
      ∧ (String.mk (desc.data.take (width - 25)) ++ "...").length = width - 22)
    ∧ ((desc.length : Int) ≤ (width : Int) - 22 →
      truncateDescription width desc = some desc) :=
  ⟨fun hl => truncateDescription_truncates width desc h hl,
   fun hs => truncateDescription_id_of_short width desc (by omega)⟩

/-- C5, witness: the amended theorem applied at width 30 to a ten-character
description, which is cut to five characters plus the marker, and at width
30 to a short description, which is unchanged. -/
theorem claim_C5_witness :
    truncateDescription 30 "abcdefghij"
      = some (String.mk ("abcdefghij".data.take (30 - 25)) ++ "...")
    ∧ (String.mk ("abcdefghij".data.take (30 - 25)) ++ "...").length = 30 - 22 :=
  (claim_C5_amended 30 "abcdefghij" (by decide)).1 (by decide)

/-- C6: sorting with the reversal flag set equals sorting without it and
then reversing the result end-to-end, for every order string; and for the
added-at key, reversing twice returns the original fetch order. -/
theorem claim_C6 (stars : List Star) (order : String) :
    sortItemOrder stars order true = (sortItemOrder stars order false).reverse
    ∧ sortItemOrder (sortItemOrder stars "added-at" true) "added-at" true = stars := by
  constructor
  · exact sortItemOrder_true_eq_reverse stars order
  · have h1 : sortItemOrder stars "added-at" true = stars.reverse := by
      rw [sortItemOrder_true_eq_reverse, sortItemOrder_added_at]
    have h2 : sortItemOrder stars.reverse "added-at" true = stars.reverse.reverse := by
      rw [sortItemOrder_true_eq_reverse, sortItemOrder_added_at]
    rw [h1, h2, List.reverse_reverse]

/-- C7: with the reversal flag unset the output of the sort is ordered by
the requested key: for author-name no later record's lower-cased owner
login precedes an earlier one's (ascending case-insensitive owner handle),
for created-at no later record was created after an earlier one
(descending creation timestamp), for repository-name the lower-cased
display names are ascending, for updated-at the update timestamps are
descending, and for added-at the list is returned in fetch order
unchanged. -/
theorem claim_C7 (stars : List Star) :
    List.Pairwise (fun x y => ltAuthorName y x = false)
      (sortItemOrder stars "author-name" false)
    ∧ List.Pairwise (fun x y => ltCreatedAt y x = false)
      (sortItemOrder stars "created-at" false)
    ∧ List.Pairwise (fun x y => ltRepositoryName y x = false)
      (sortItemOrder stars "repository-name" false)
    ∧ List.Pairwise (fun x y => ltUpdatedAt y x = false)
      (sortItemOrder stars "updated-at" false)
    ∧ sortItemOrder stars "added-at" false = stars := by
  have e1 : sortItemOrder stars "author-name" false
      = (sortSlice ltAuthorName stars.toArray).toList := rfl
  have e2 : sortItemOrder stars "created-at" false
      = (sortSlice ltCreatedAt stars.toArray).toList := rfl
  have e3 : sortItemOrder stars "repository-name" false
      = (sortSlice ltRepositoryName stars.toArray).toList := rfl
  have e4 : sortItemOrder stars "updated-at" false
      = (sortSlice ltUpdatedAt stars.toArray).toList := rfl
  refine ⟨?_, ?_, ?_, ?_, sortItemOrder_added_at stars⟩
  · rw [e1]
    exact sortSlice_pairwise ltAuthorName ltAuthorName_swo.1 ltAuthorName_swo.2.1
      ltAuthorName_swo.2.2 stars.toArray
  · rw [e2]
    exact sortSlice_pairwise ltCreatedAt ltCreatedAt_swo.1 ltCreatedAt_swo.2.1
      ltCreatedAt_swo.2.2 stars.toArray
  · rw [e3]
    exact sortSlice_pairwise ltRepositoryName ltRepositoryName_swo.1 ltRepositoryName_swo.2.1
      ltRepositoryName_swo.2.2 stars.toArray
  · rw [e4]
    exact sortSlice_pairwise ltUpdatedAt ltUpdatedAt_swo.1 ltUpdatedAt_swo.2.1
      ltUpdatedAt_swo.2.2 stars.toArray

/-- C8, counterexample: the implementation strips only space characters,
not all whitespace.  For the query containing a tab and the candidate
named ab, the specified normalization (strip all whitespace) makes the
query a subsequence of the name, so the claim makes the candidate
visible, but the searcher keeps the tab and reports it invisible. -/
theorem claim_C8_counterexample :
    searcherMatch "a\tb" abStar = false
    ∧ (specNormalize "a\tb").data <+ (specNormalize abStar.FullName).data := by
  constructor
  · rfl
  · decide

/-- C8, amended: a candidate is visible under a query exactly when the
query, lower-cased with all space characters removed, is a (not
necessarily contiguous) subsequence of the full name under the same
normalization; the empty query makes every candidate visible. -/
theorem claim_C8_amended (input : String) (star : Star) :
    (searcherMatch input star = true ↔ (normalize input).data <+ (normalize star.FullName).data)
    ∧ searcherMatch "" star = true := by
  constructor
  · exact searcherMatch_iff input star
  · rw [searcherMatch_iff]
    exact List.nil_sublist _

/-- C9: appending one character to the query never makes an invisible
candidate visible: every index visible under the extended query was
already visible under the original query. -/
theorem claim_C9 (stars : List Star) (q : String) (c : Char) (index : Nat)
    (h : searcher stars (q.push c) index = some true) :
    searcher stars q index = some true := by
  unfold searcher at h ⊢
  cases hg : stars.get? index with
  | none =>
    rw [hg] at h
    exact Option.noConfusion h
  | some star =>
    rw [hg] at h
    exact congrArg some (searcherMatch_push_mono q c star (Option.some.inj h))

/-- C9, witness: with the single candidate named ab, the query ab (built
by pushing b onto a) is visible, hence so is the query a. -/
theorem claim_C9_witness :
    searcher [abStar] "a" 0 = some true :=
  claim_C9 [abStar] "a" 'b' 0 (by decide)

/-- C10: for every input list, every order string (recognized or not) and
either reversal flag, the sorted output is a permutation of the input:
the same records with the same multiplicities. -/
theorem claim_C10 (stars : List Star) (order : String) (reverse : Bool) :
    List.Perm (sortItemOrder stars order reverse) stars :=
  sortItemOrder_perm stars order reverse

end Hoshi
